import Mathlib

/-!
Verification of the background control plane of the TiKV range-cache memory
engine (components/range_cache_memory_engine/src/background.rs) and of the
RocksDB write-batch wrapper (components/engine_rocks/src/write_batch.rs),
through a shallow embedding of the relevant functions.

Conventions of the embedding:
- Byte strings are lists of naturals; machine u64 arithmetic is modelled with
  Nat together with an explicit modulus 2^64 where overflow matters.
- Rust panics or failed assertions are modelled as Except.error; fallible paths
  return Except or Option.
- Stateful code is modelled by explicit state passing; each Rust method becomes
  a pure function from the old state to the new state plus its outputs.
-/

set_option maxHeartbeats 1000000

/-! ## Basic byte-string machinery -/

/-- Byte strings (keys) are modelled as lists of naturals. -/
abbrev Bytes := List Nat

/-- The modulus of u64 arithmetic. -/
def u64Mod : Nat := 2 ^ 64

/-- u64::MAX, the default used by gc_region when no snapshot or historical
timestamp is present. -/
def u64Max : Nat := u64Mod - 1

/-- Wrapping u64 subtraction, as Rust release-mode `a - b` computes. -/
def sub64 (a b : Nat) : Nat := (a + (u64Mod - b % u64Mod)) % u64Mod

/-- Strict lexicographic order on byte strings, the order of the key space. -/
def bytesLt : Bytes → Bytes → Bool
  | [], [] => false
  | [], _ :: _ => true
  | _ :: _, [] => false
  | a :: as, b :: bs => if a < b then true else if a > b then false else bytesLt as bs

/-- Non-strict lexicographic order on byte strings. -/
def bytesLe (a b : Bytes) : Bool := a = b || bytesLt a b

/-! ## RocksWriteBatch (engine_rocks/src/write_batch.rs)

The wrapper splits a logically single write batch into a vector `wbs` of small
RocksDB batches of at most `batch_size_limit` mutations each when
multi-batch-write is enabled.  We model each raw batch by the list of
mutations recorded in it. -/

/-- The six mutating operations of the `Mutable` impl.  Keys, values and column
family names are bytes. -/
inductive Mut where
  | put (key value : Bytes)
  | putCf (cf : Bytes) (key value : Bytes)
  | del (key : Bytes)
  | delCf (cf : Bytes) (key : Bytes)
  | delRange (beginKey endKey : Bytes)
  | delRangeCf (cf : Bytes) (beginKey endKey : Bytes)
deriving DecidableEq, Repr

/-- WRITE_BATCH_LIMIT in write_batch.rs. -/
def writeBatchLimit : Nat := 16

/-- WRITE_BATCH_MAX_BATCH in write_batch.rs. -/
def writeBatchMaxBatch : Nat := 16

/-- State of a RocksWriteBatch.  `wbs` holds the constituent raw batches, each
modelled by its recorded mutations; the remaining fields mirror the Rust
struct. -/
structure WB where
  wbs : List (List Mut)
  savePoints : List Nat
  index : Nat
  curBatchSize : Nat
  batchSizeLimit : Nat
  enableBatchVec : Bool
deriving DecidableEq, Repr

/-- RocksWriteBatch::new / with_capacity: one empty raw batch, limit
WRITE_BATCH_LIMIT, the multi-batch-write flag taken from the engine options. -/
def WB.fresh (enable : Bool) : WB :=
  { wbs := [[]], savePoints := [], index := 0, curBatchSize := 0,
    batchSizeLimit := writeBatchLimit, enableBatchVec := enable }

/-- RocksWriteBatch::check_switch_batch.  When splitting is enabled and the
current batch is full, advance to the next batch (growing `wbs` when needed)
and reset the fill counter; in every case account for the mutation about to be
recorded, so `curBatchSize` ends at 1 after a switch and at +1 otherwise. -/
def WB.checkSwitchBatch (w : WB) : WB :=
  if w.enableBatchVec ∧ 0 < w.batchSizeLimit ∧ w.batchSizeLimit ≤ w.curBatchSize then
    if w.wbs.length ≤ w.index + 1 then
      { w with index := w.index + 1, curBatchSize := 1, wbs := w.wbs ++ [[]] }
    else
      { w with index := w.index + 1, curBatchSize := 1 }
  else
    { w with curBatchSize := w.curBatchSize + 1 }

/-- Record a mutation in the current raw batch.  Every method of the `Mutable`
impl first calls check_switch_batch and then appends to `wbs[index]`. -/
def WB.push (w : WB) (m : Mut) : WB :=
  let w := w.checkSwitchBatch
  { w with wbs := w.wbs.set w.index ((w.wbs.getD w.index []) ++ [m]) }

/-- Apply a sequence of mutating calls to a write batch. -/
def WB.pushAll (w : WB) (ms : List Mut) : WB := ms.foldl WB.push w

/-- RocksWriteBatch::count. -/
def WB.count (w : WB) : Nat := w.curBatchSize + w.index * w.batchSizeLimit

/-- RocksWriteBatch::clear: clears the used raw batches and resets the
counters. -/
def WB.clear (w : WB) : WB :=
  { w with wbs := w.wbs.map (fun _ => []), savePoints := [],
           index := 0, curBatchSize := 0 }

/-- RocksWriteBatch::merge as implemented: the loop variable is unused and the
body always appends the data of `other.wbs[other.index]` to the receiver's
current batch, so that last batch is appended `other.index + 1` times. -/
def WB.mergeCode (w other : WB) : WB :=
  (List.range (other.index + 1)).foldl
    (fun acc _ =>
      { acc with
        wbs := acc.wbs.set acc.index
          ((acc.wbs.getD acc.index []) ++ (other.wbs.getD other.index [])) })
    w

/-- The merge behaviour the claim states: append the data of each constituent
batch `other.wbs[0..=other.index]`, in order, to the receiver's current
batch. -/
def WB.mergeEachOnce (w other : WB) : WB :=
  { w with
    wbs := w.wbs.set w.index
      ((w.wbs.getD w.index []) ++ ((other.wbs.take (other.index + 1)).flatten)) }

/-- All mutations recorded in the used batches of a write batch. -/
def WB.mutations (w : WB) : List Mut := (w.wbs.take (w.index + 1)).flatten

/-! ### Theorems about RocksWriteBatch -/

/-- The invariant maintained by the mutation path: with multi-batch-write
enabled and a positive limit, the current small batch never exceeds the
limit. -/
def WB.inv (w : WB) : Prop :=
  w.enableBatchVec = true → 0 < w.batchSizeLimit → w.curBatchSize ≤ w.batchSizeLimit

theorem WB.count_checkSwitchBatch (w : WB) (h : w.inv) :
    w.checkSwitchBatch.count = w.count + 1 ∧ w.checkSwitchBatch.inv := by
  unfold WB.inv at h
  unfold WB.checkSwitchBatch
  split_ifs with h1 h2
  · obtain ⟨he, hl, hcur⟩ := h1
    constructor
    · show 1 + (w.index + 1) * w.batchSizeLimit = w.curBatchSize + w.index * w.batchSizeLimit + 1
      have heq : w.curBatchSize = w.batchSizeLimit := le_antisymm (h he hl) hcur
      rw [Nat.succ_mul]
      omega
    · intro _ _
      show (1 : Nat) ≤ w.batchSizeLimit
      omega
  · obtain ⟨he, hl, hcur⟩ := h1
    constructor
    · show 1 + (w.index + 1) * w.batchSizeLimit = w.curBatchSize + w.index * w.batchSizeLimit + 1
      have heq : w.curBatchSize = w.batchSizeLimit := le_antisymm (h he hl) hcur
      rw [Nat.succ_mul]
      omega
    · intro _ _
      show (1 : Nat) ≤ w.batchSizeLimit
      omega
  · constructor
    · show w.curBatchSize + 1 + w.index * w.batchSizeLimit = w.curBatchSize + w.index * w.batchSizeLimit + 1
      omega
    · intro he hl
      simp only [not_and, not_le] at h1
      have hx := h1 he hl
      show w.curBatchSize + 1 ≤ w.batchSizeLimit
      omega

theorem WB.count_push (w : WB) (m : Mut) (h : w.inv) :
    (w.push m).count = w.count + 1 ∧ (w.push m).inv := by
  have hcs := w.count_checkSwitchBatch h
  unfold WB.push
  exact ⟨hcs.1, hcs.2⟩

theorem WB.count_pushAll (ms : List Mut) : ∀ (w : WB), w.inv →
    (w.pushAll ms).count = w.count + ms.length ∧ (w.pushAll ms).inv := by
  induction ms with
  | nil => intro w h; simpa [WB.pushAll] using h
  | cons m ms ih =>
    intro w h
    have h1 := w.count_push m h
    have h2 := ih (w.push m) h1.2
    unfold WB.pushAll at *
    simp only [List.foldl_cons]
    refine ⟨?_, h2.2⟩
    rw [h2.1, h1.1]
    simp [List.length_cons]
    omega

/-- C10: for every sequence of n mutating calls applied to a RocksWriteBatch
since its creation or last clear(), count() returns exactly n, whether
multi-batch-write splitting is enabled or not (when enabled,
cur_batch_size + index * batch_size_limit accounts for every mutation). -/
theorem writeBatch_count_exact (enable : Bool) (ms : List Mut) (w : WB) :
    ((WB.fresh enable).pushAll ms).count = ms.length ∧
    ((w.clear).pushAll ms).count = ms.length := by
  have hf : (WB.fresh enable).inv := by
    intro _ _; simp [WB.fresh]
  have hc : (w.clear).inv := by
    intro _ _; simp [WB.clear]
  have r1 := WB.count_pushAll ms (WB.fresh enable) hf
  have r2 := WB.count_pushAll ms w.clear hc
  constructor
  · rw [r1.1]; simp [WB.count, WB.fresh]
  · rw [r2.1]; simp [WB.count, WB.clear]

/-- C9: evaluation of RocksWriteBatch::merge at a two-batch argument.  A write
batch `other` built from 17 distinct puts (multi-batch-write enabled, limit 16)
splits into two constituent batches; the implemented merge appends the data of
the last batch other.index + 1 = 2 times, so the receiver ends up holding the
17th mutation twice and the first mutation not at all, instead of holding every
mutation of `other` exactly once. -/
theorem merge_appends_last_batch_only :
    (((WB.fresh true).pushAll ((List.range 17).map (fun i => Mut.put [i] []))).index = 1) ∧
    (((WB.fresh true).pushAll ((List.range 17).map (fun i => Mut.put [i] []))).mutations.length = 17) ∧
    (((WB.fresh true).mergeCode
        ((WB.fresh true).pushAll ((List.range 17).map (fun i => Mut.put [i] [])))).mutations.count
        (Mut.put [16] []) = 2) ∧
    (((WB.fresh true).mergeCode
        ((WB.fresh true).pushAll ((List.range 17).map (fun i => Mut.put [i] [])))).mutations.count
        (Mut.put [0] []) = 0) ∧
    ((WB.fresh true).mergeCode
        ((WB.fresh true).pushAll ((List.range 17).map (fun i => Mut.put [i] []))) ≠
      (WB.fresh true).mergeEachOnce
        ((WB.fresh true).pushAll ((List.range 17).map (fun i => Mut.put [i] [])))) := by
  decide

/-! ## Region and range basics (range_manager / engine_traits types) -/

/-- RegionState from range_manager.rs. -/
inductive RegionState where
  | pending
  | readyToLoad
  | loading
  | loadingCanceled
  | active
  | evicting
  | deleting
deriving DecidableEq, Repr

/-- EvictReason values used by background.rs. -/
inductive EvictReason where
  | loadFailed
  | loadFailedWithoutStart
  | memoryLimitReached
  | autoEvict
deriving DecidableEq, Repr

/-- A region: identity, epoch version and key range. -/
structure Region where
  id : Nat
  epochVer : Nat
  start : Bytes
  stop : Bytes
deriving DecidableEq, Repr

/-- A half-open key range, CacheRange in engine_traits. -/
structure KeyRange where
  start : Bytes
  stop : Bytes
deriving DecidableEq, Repr

/-- CacheRange::from_region. -/
def Region.range (r : Region) : KeyRange := ⟨r.start, r.stop⟩

/-- Modelled from the spec: CacheRange::contains_range of engine_traits
(the crate is outside src/): containment of half-open ranges. -/
def KeyRange.containsRange (a b : KeyRange) : Bool :=
  bytesLe a.start b.start && bytesLe b.stop a.stop

/-- Modelled from the spec: CacheRange::overlaps of engine_traits (outside
src/): two half-open ranges intersect. -/
def KeyRange.overlaps (a b : KeyRange) : Bool :=
  bytesLt a.start b.stop && bytesLt b.start a.stop

/-! ## Tick driver (BgWorkManager::start_tick)

The tick thread waits on three channels: the gc ticker, the load-evict ticker
and the stop channel.  We model one loop iteration per received event. -/

/-- A timestamp returned by the placement service, physical milliseconds plus
a logical counter. -/
structure TsTime where
  physical : Nat
  logical : Nat
deriving DecidableEq, Repr

/-- Modelled from the spec: txn_types TimeStamp::compose packs the physical
milliseconds above the 18 logical bits (the crate is outside src/; the claim
only uses compose as the common reference point). -/
def tsCompose (physical logical : Nat) : Nat := (physical * 2 ^ 18 + logical) % u64Mod

/-- TIMTOUT_FOR_TSO in background.rs, in milliseconds. -/
def tsoTimeoutCapMs : Nat := 5000

/-- The timeout used for every TSO fetch: min(gc_interval, 5 s). -/
def tsoTimeoutMs (gcIntervalMs : Nat) : Nat := min gcIntervalMs tsoTimeoutCapMs

/-- The events the tick loop can receive. -/
inductive TickEvent where
  | gcTick (tso : Option TsTime)
  | loadEvictTick
  | stopMsg
deriving DecidableEq, Repr

/-- The background tasks of the BackgroundTask enum that the models in this
file schedule. -/
inductive BgTask where
  | gc (safePoint : Nat)
  | topRegionsLoadEvict
  | deleteRegions (regions : List Region)
deriving DecidableEq, Repr

/-- One iteration of the select loop in start_tick: a gc tick fetches a
timestamp with timeout min(gc_interval, 5 s); on success it schedules
Gc with safe_point = compose(physical - gc_interval_ms, 0) (wrapping u64
subtraction); on failure it logs and continues without scheduling.  A
load-evict tick schedules TopRegionsLoadEvict; a stop message ends the loop.
Returns the scheduled tasks and whether the loop continues. -/
def tickStep (gcIntervalMs : Nat) (ev : TickEvent) : List BgTask × Bool :=
  match ev with
  | .gcTick none => ([], true)
  | .gcTick (some now) =>
      ([.gc (tsCompose (sub64 now.physical gcIntervalMs) 0)], true)
  | .loadEvictTick => ([.topRegionsLoadEvict], true)
  | .stopMsg => ([], false)

/-- C8: on every GC tick the driver uses timeout min(gc_interval, 5 s) for the
timestamp fetch; on success it schedules exactly one Gc task whose safe_point
is compose(ts.physical - gc_interval_ms, 0); on failure it schedules nothing
and the loop simply continues with the next tick. -/
theorem gc_tick_schedules_composed_safe_point (gcIntervalMs : Nat) (now : TsTime) :
    tsoTimeoutMs gcIntervalMs = min gcIntervalMs 5000 ∧
    tickStep gcIntervalMs (.gcTick (some now)) =
      ([.gc (tsCompose (sub64 now.physical gcIntervalMs) 0)], true) ∧
    tickStep gcIntervalMs (.gcTick none) = ([], true) := by
  exact ⟨rfl, rfl, rfl⟩

/-! ## Region model (range_manager types as used by background.rs)

The region manager itself lives outside the provided sources; the operations
background.rs calls on it are modelled from the spec (each such definition is
marked).  Everything else below is translated from background.rs. -/

/-- RangeMeta: the region manager's per-region record, as read and written by
background.rs (region, lifecycle state, safe point, gc guard, active snapshot
timestamps, evict reason). -/
structure RangeMeta where
  region : Region
  state : RegionState
  safePoint : Nat
  inGc : Bool
  snapshotTss : List Nat
  evictReason : Option EvictReason
deriving DecidableEq, Repr

/-- RangeMeta::get_range. -/
def RangeMeta.range (m : RangeMeta) : KeyRange := m.region.range

/-- The region manager state visible to the background tasks: the meta map
(keyed by region id), the historical range records and the registry of ranges
currently being written. -/
structure EngineSt where
  regions : List RangeMeta
  histRegions : List (KeyRange × Nat)
  rangesBeingWritten : List KeyRange
deriving DecidableEq, Repr

/-- RangeManager::region_meta / mut_region_meta: lookup by region id. -/
def findMeta (st : EngineSt) (id : Nat) : Option RangeMeta :=
  st.regions.find? (fun m => m.region.id == id)

/-- Replace the meta stored under `id`. -/
def setMeta (st : EngineSt) (id : Nat) (m' : RangeMeta) : EngineSt :=
  { st with regions := st.regions.map (fun m => if m.region.id == id then m' else m) }

/-- Minimum of a list of naturals, none when empty. -/
def minNatList : List Nat → Option Nat
  | [] => none
  | a :: as =>
    some (match minNatList as with
          | none => a
          | some b => min a b)

/-- Modelled from the spec: RangeManager::get_history_regions_min_ts (range
manager is outside src/): the minimum snapshot timestamp over historical
records overlapping the range, none when there is no overlapping record. -/
def historyMinTs (hist : List (KeyRange × Nat)) (range : KeyRange) : Option Nat :=
  minNatList ((hist.filter (fun p => p.1.overlaps range)).map (fun p => p.2))

/-- Modelled from the spec: RegionSnapshotList::min_snapshot_ts (outside
src/): minimum timestamp of the active snapshots of the region. -/
def minSnapshotTs (m : RangeMeta) : Option Nat := minNatList m.snapshotTss

/-- Modelled from the spec: RangeManager::on_gc_region_finished (outside
src/): clear the in_gc guard of the region. -/
def onGcRegionFinished (st : EngineSt) (region : Region) : EngineSt :=
  match findMeta st region.id with
  | some m => setMeta st region.id { m with inGc := false }
  | none => st

/-! ## BackgroundRunnerCore::gc_region -/

/-- Result of one gc_region pass: skipped (metrics default), or ran with the
effective safe point that was installed. -/
inductive GcOutcome where
  | skipped
  | ran (effective : Nat)
deriving DecidableEq, Repr

/-- BackgroundRunnerCore::gc_region.  Computes the effective safe point as the
minimum of the requested safe point, the minimum active snapshot timestamp of
the region and the minimum timestamp of overlapping historical ranges (each
defaulting to u64::MAX when absent); skips when the region is missing, not
Active, out of range, or when the effective safe point does not strictly
exceed the stored one; otherwise installs the new safe point, sets in_gc, runs
the Filter over the skiplist columns (modelled separately, it does not touch
region metas) and finally clears in_gc via on_gc_region_finished.  The
oldest_seqno argument is only handed to the Filter. -/
def gcRegion (st : EngineSt) (region : Region) (safePoint oldestSeqno : Nat) :
    EngineSt × GcOutcome :=
  let range := region.range
  let histSp := (historyMinTs st.histRegions range).getD u64Max
  match findMeta st region.id with
  | none => (st, .skipped)
  | some meta =>
    if meta.state ≠ RegionState.active ∨ range.containsRange meta.range = false then
      (st, .skipped)
    else
      let minSnap := (minSnapshotTs meta).getD u64Max
      let sp := min (min safePoint minSnap) histSp
      if sp ≤ meta.safePoint then
        (st, .skipped)
      else
        let st1 := setMeta st region.id { meta with safePoint := sp, inGc := true }
        (onGcRegionFinished st1 region, .ran sp)

theorem find?_map_replace (l : List RangeMeta) (id : Nat) (m' : RangeMeta)
    (h : (l.find? (fun m => m.region.id == id)).isSome)
    (hid : m'.region.id = id) :
    (l.map (fun m => if m.region.id == id then m' else m)).find?
      (fun m => m.region.id == id) = some m' := by
  induction l with
  | nil => simp [List.find?] at h
  | cons a l ih =>
    by_cases ha : (a.region.id == id) = true
    · simp only [List.map_cons, ha, if_true]
      exact List.find?_cons_of_pos _ (by simpa using hid)
    · have ha' : (a.region.id == id) = false := by simpa using ha
      simp only [List.map_cons, ha', Bool.false_eq_true, if_false]
      rw [List.find?_cons_of_neg _ (by simp [ha'])]
      apply ih
      rw [List.find?_cons_of_neg _ (by simp [ha'])] at h
      exact h

theorem findMeta_setMeta_self (st : EngineSt) (id : Nat) (m' : RangeMeta)
    (h : (findMeta st id).isSome) (hid : m'.region.id = id) :
    findMeta (setMeta st id m') id = some m' := by
  unfold findMeta setMeta at *
  exact find?_map_replace st.regions id m' h hid

theorem findMeta_some_id (st : EngineSt) (id : Nat) (m : RangeMeta)
    (h : findMeta st id = some m) : m.region.id = id := by
  unfold findMeta at h
  have := List.find?_some h
  simpa using this

/-- Single-pass safe-point monotonicity of gc_region. -/
theorem gcRegion_safePoint_mono (st : EngineSt) (region : Region)
    (sp seq : Nat) (meta m2 : RangeMeta)
    (hfind : findMeta st region.id = some meta)
    (hfind2 : findMeta (gcRegion st region sp seq).1 region.id = some m2) :
    meta.safePoint ≤ m2.safePoint := by
  unfold gcRegion at hfind2
  rw [hfind] at hfind2
  simp only at hfind2
  split_ifs at hfind2 with h1 h2
  · rw [hfind] at hfind2
    injection hfind2 with hh
    exact le_of_eq (by rw [hh])
  · rw [hfind] at hfind2
    injection hfind2 with hh
    exact le_of_eq (by rw [hh])
  · set spNew := min (min sp ((minSnapshotTs meta).getD u64Max))
        ((historyMinTs st.histRegions region.range).getD u64Max) with hsp
    have hmid : meta.region.id = region.id := findMeta_some_id st region.id meta hfind
    have hs1 : findMeta (setMeta st region.id { meta with safePoint := spNew, inGc := true })
        region.id = some { meta with safePoint := spNew, inGc := true } := by
      apply findMeta_setMeta_self
      · rw [hfind]; rfl
      · exact hmid
    unfold onGcRegionFinished at hfind2
    rw [hs1] at hfind2
    simp only at hfind2
    have hs2 : findMeta
        (setMeta (setMeta st region.id { meta with safePoint := spNew, inGc := true })
          region.id { meta with safePoint := spNew, inGc := false })
        region.id = some { meta with safePoint := spNew, inGc := false } :=
      findMeta_setMeta_self _ _ _ (by rw [hs1]; rfl) hmid
    rw [hs2] at hfind2
    injection hfind2 with hh
    rw [← hh]
    show meta.safePoint ≤ spNew
    omega

/-- gc_region leaves the set of region ids intact: a region id resolvable
before a pass is resolvable after it. -/
theorem gcRegion_find_isSome (st : EngineSt) (region : Region) (sp seq : Nat)
    (h : (findMeta st region.id).isSome) :
    (findMeta (gcRegion st region sp seq).1 region.id).isSome := by
  obtain ⟨meta, hm⟩ := Option.isSome_iff_exists.mp h
  unfold gcRegion
  rw [hm]
  simp only
  split_ifs with h1 h2
  · rw [hm]; rfl
  · rw [hm]; rfl
  · have hmid : meta.region.id = region.id := findMeta_some_id st region.id meta hm
    set spNew := min (min sp ((minSnapshotTs meta).getD u64Max))
        ((historyMinTs st.histRegions region.range).getD u64Max)
    have hs1 : findMeta (setMeta st region.id { meta with safePoint := spNew, inGc := true })
        region.id = some { meta with safePoint := spNew, inGc := true } := by
      apply findMeta_setMeta_self
      · rw [hm]; rfl
      · exact hmid
    unfold onGcRegionFinished
    rw [hs1]
    simp only
    have hs2 : findMeta
        (setMeta (setMeta st region.id { meta with safePoint := spNew, inGc := true })
          region.id { meta with safePoint := spNew, inGc := false })
        region.id = some { meta with safePoint := spNew, inGc := false } :=
      findMeta_setMeta_self _ _ _ (by rw [hs1]; rfl) hmid
    rw [hs2]
    rfl

/-- C1: in every gc_region pass the effective safe point is the minimum of the
requested safe point, the minimum active snapshot timestamp of the region and
the minimum snapshot timestamp over overlapping historical ranges (defaulting
to u64::MAX when absent); when that minimum is not strictly above the stored
safe point the pass is skipped with the state unchanged; and over one or two
successive passes the stored safe point never decreases. -/
theorem gc_region_effective_min_and_monotone (st : EngineSt) (region : Region)
    (sp1 seq1 sp2 seq2 : Nat) (meta : RangeMeta)
    (hfind : findMeta st region.id = some meta) :
    (∀ st2 eff, gcRegion st region sp1 seq1 = (st2, .ran eff) →
        eff = min (min sp1 ((minSnapshotTs meta).getD u64Max))
                  ((historyMinTs st.histRegions region.range).getD u64Max)) ∧
    (min (min sp1 ((minSnapshotTs meta).getD u64Max))
         ((historyMinTs st.histRegions region.range).getD u64Max) ≤ meta.safePoint →
        gcRegion st region sp1 seq1 = (st, .skipped)) ∧
    (∀ m2, findMeta (gcRegion st region sp1 seq1).1 region.id = some m2 →
        meta.safePoint ≤ m2.safePoint) ∧
    (∀ m2, findMeta (gcRegion (gcRegion st region sp1 seq1).1 region sp2 seq2).1
          region.id = some m2 →
        meta.safePoint ≤ m2.safePoint) := by
  refine ⟨?_, ?_, ?_, ?_⟩
  · intro st2 eff hrun
    unfold gcRegion at hrun
    rw [hfind] at hrun
    simp only at hrun
    split_ifs at hrun with h1 h2
    · exact absurd hrun (by simp)
    · exact absurd hrun (by simp)
    · injection hrun with _ h
      injection h with h
      omega
  · intro hle
    unfold gcRegion
    rw [hfind]
    simp only
    split_ifs with h1 <;> rfl
  · intro m2 h2
    exact gcRegion_safePoint_mono st region sp1 seq1 meta m2 hfind h2
  · intro m2 h2
    have hsome1 : (findMeta (gcRegion st region sp1 seq1).1 region.id).isSome :=
      gcRegion_find_isSome st region sp1 seq1 (by rw [hfind]; rfl)
    obtain ⟨m1, hm1⟩ := Option.isSome_iff_exists.mp hsome1
    have step1 := gcRegion_safePoint_mono st region sp1 seq1 meta m1 hfind hm1
    have step2 := gcRegion_safePoint_mono _ region sp2 seq2 m1 m2 hm1 h2
    omega

/-- Example fixture for gc_region: one Active region with an outstanding
snapshot at ts 20 and an overlapping historical record at ts 30. -/
def exGcRegion : Region := { id := 1, epochVer := 1, start := [0], stop := [10] }

def exGcMeta : RangeMeta :=
  { region := exGcRegion, state := RegionState.active, safePoint := 5,
    inGc := false, snapshotTss := [20], evictReason := none }

def exGcSt : EngineSt :=
  { regions := [exGcMeta], histRegions := [(⟨[1], [2]⟩, 30)],
    rangesBeingWritten := [] }

theorem gc_region_effective_min_and_monotone_witness :
    findMeta exGcSt exGcRegion.id = some exGcMeta ∧
    (∀ m2, findMeta (gcRegion exGcSt exGcRegion 25 7).1 exGcRegion.id = some m2 →
        exGcMeta.safePoint ≤ m2.safePoint) :=
  ⟨by decide,
   (gc_region_effective_min_and_monotone exGcSt exGcRegion 25 7 0 0 exGcMeta
      (by decide)).2.2.1⟩

/-! ## BackgroundRunnerCore::on_snapshot_load_finished / on_snapshot_load_failed -/

/-- Apply `f` to every meta satisfying `pred`, keep the others, and collect the
regions the transformed metas queue for deletion; a per-meta assertion failure
aborts the whole pass (the Rust code panics). -/
def applyToAffected (pred : RangeMeta → Bool)
    (f : RangeMeta → Except String (RangeMeta × Option Region)) :
    List RangeMeta → Except String (List RangeMeta × List Region)
  | [] => .ok ([], [])
  | m :: rest =>
    if pred m then
      match f m with
      | .error e => .error e
      | .ok (m', rm) =>
        match applyToAffected pred f rest with
        | .error e => .error e
        | .ok (rest', rms) => .ok (m' :: rest', rm.toList ++ rms)
    else
      match applyToAffected pred f rest with
      | .error e => .error e
      | .ok (rest', rms) => .ok (m :: rest', rms)

/-- The per-meta closure of on_snapshot_load_finished: a Loading meta becomes
Active with the safe point installed; a LoadingCanceled meta is marked
Evicting with reason LoadFailed (RangeMeta::mark_evict, modelled from the
spec: it records the state and the reason) and its region is queued for
deletion; any other state fails the assertion. -/
def loadFinishedMetaStep (safePoint : Nat) (meta : RangeMeta) :
    Except String (RangeMeta × Option Region) :=
  if meta.state = RegionState.loading then
    .ok ({ meta with state := RegionState.active, safePoint := safePoint }, none)
  else if meta.state = RegionState.loadingCanceled then
    .ok ({ meta with state := RegionState.evicting,
                     evictReason := some EvictReason.loadFailed }, some meta.region)
  else
    .error "on_snapshot_load_finished: state is neither Loading nor LoadingCanceled"

/-- The per-meta closure used on the epoch-mismatch path, which additionally
asserts that the overlapped meta is contained in the loaded region's range. -/
def loadFinishedMetaStepChecked (range : KeyRange) (safePoint : Nat)
    (meta : RangeMeta) : Except String (RangeMeta × Option Region) :=
  if range.containsRange meta.range then loadFinishedMetaStep safePoint meta
  else .error "on_snapshot_load_finished: overlapped meta outside loaded range"

/-- The metas affected by on_snapshot_load_finished / on_snapshot_load_failed:
the region-id entry when the stored epoch version matches, otherwise every
meta overlapping the loaded region's range. -/
def affectedPred (st : EngineSt) (region : Region) : RangeMeta → Bool :=
  match findMeta st region.id with
  | none => fun _ => false
  | some meta0 =>
    if meta0.region.epochVer = region.epochVer then
      fun m => m.region.id == region.id
    else
      fun m => region.range.overlaps m.range

/-- BackgroundRunnerCore::on_snapshot_load_finished.  Under the write lock,
either the region-id meta (same epoch version) or every overlapping meta
(epoch version changed) is taken through loadFinishedMetaStep; the regions
marked Evicting are scheduled as one DeleteRegions task, and the function
returns false exactly when the load was canceled (some meta was
LoadingCanceled). -/
def onSnapshotLoadFinished (st : EngineSt) (region : Region) (safePoint : Nat) :
    Except String (EngineSt × List BgTask × Bool) :=
  match findMeta st region.id with
  | none => .error "mut_region_meta: no meta for region"
  | some meta0 =>
    let step :=
      if meta0.region.epochVer = region.epochVer then
        loadFinishedMetaStep safePoint
      else
        loadFinishedMetaStepChecked region.range safePoint
    match applyToAffected (affectedPred st region) step st.regions with
    | .error e => .error e
    | .ok (regions', removed) =>
      .ok ({ st with regions := regions' },
           if removed.isEmpty then [] else [BgTask.deleteRegions removed],
           removed.isEmpty)

/-- The per-meta closure of on_snapshot_load_failed: asserts Loading or
LoadingCanceled, marks the meta Evicting with reason LoadFailed when the load
had started and LoadFailedWithoutStart when it had not, and queues the region
for deletion. -/
def loadFailedMetaStep (started : Bool) (meta : RangeMeta) :
    Except String (RangeMeta × Option Region) :=
  if meta.state = RegionState.loading ∨ meta.state = RegionState.loadingCanceled then
    .ok ({ meta with state := RegionState.evicting,
                     evictReason := some (if started then EvictReason.loadFailed
                                          else EvictReason.loadFailedWithoutStart) },
         some meta.region)
  else
    .error "on_snapshot_load_failed: state is neither Loading nor LoadingCanceled"

/-- The epoch-mismatch variant with the containment assertion. -/
def loadFailedMetaStepChecked (range : KeyRange) (started : Bool)
    (meta : RangeMeta) : Except String (RangeMeta × Option Region) :=
  if range.containsRange meta.range then loadFailedMetaStep started meta
  else .error "on_snapshot_load_failed: overlapped meta outside loaded range"

/-- BackgroundRunnerCore::on_snapshot_load_failed.  Marks the affected metas
Evicting (reason depending on whether the load had started) and always
schedules the collected regions as a DeleteRegions task. -/
def onSnapshotLoadFailed (st : EngineSt) (region : Region) (started : Bool) :
    Except String (EngineSt × List BgTask) :=
  match findMeta st region.id with
  | none => .error "mut_region_meta: no meta for region"
  | some meta0 =>
    let step :=
      if meta0.region.epochVer = region.epochVer then
        loadFailedMetaStep started
      else
        loadFailedMetaStepChecked region.range started
    match applyToAffected (affectedPred st region) step st.regions with
    | .error e => .error e
    | .ok (regions', removed) =>
      .ok ({ st with regions := regions' }, [BgTask.deleteRegions removed])

theorem forall2_exists_right {α β : Type} {R : α → β → Prop} {l1 : List α}
    {l2 : List β} (h : List.Forall₂ R l1 l2) {a : α} (ha : a ∈ l1) :
    ∃ b ∈ l2, R a b := by
  induction h with
  | nil => simp at ha
  | cons hr hrest ih =>
    rcases List.mem_cons.mp ha with rfl | ha2
    · exact ⟨_, by simp, hr⟩
    · obtain ⟨b, hb, hrb⟩ := ih ha2
      exact ⟨b, by simp [hb], hrb⟩

theorem applyToAffected_ok_spec {pred : RangeMeta → Bool}
    {f : RangeMeta → Except String (RangeMeta × Option Region)}
    : ∀ {l : List RangeMeta} {l' : List RangeMeta} {rms : List Region},
    applyToAffected pred f l = .ok (l', rms) →
    List.Forall₂ (fun m m' =>
      (pred m = true ∧ ∃ rm, f m = .ok (m', rm)) ∨ (pred m = false ∧ m' = m)) l l' ∧
    (∀ r, r ∈ rms ↔ ∃ m ∈ l, pred m = true ∧ ∃ m', f m = .ok (m', some r)) := by
  intro l
  induction l with
  | nil =>
    intro l' rms h
    simp only [applyToAffected] at h
    injection h with h
    injection h with h1 h2
    subst h1; subst h2
    exact ⟨List.Forall₂.nil, by simp⟩
  | cons m rest ih =>
    intro l' rms h
    simp only [applyToAffected] at h
    by_cases hp : pred m = true
    · rw [if_pos hp] at h
      cases hf : f m with
      | error e => rw [hf] at h; exact absurd h (by simp)
      | ok pr =>
        obtain ⟨m', rm⟩ := pr
        rw [hf] at h
        cases hr : applyToAffected pred f rest with
        | error e => rw [hr] at h; exact absurd h (by simp)
        | ok pr2 =>
          obtain ⟨rest', rms'⟩ := pr2
          rw [hr] at h
          simp only at h
          injection h with h
          injection h with h1 h2
          subst h1; subst h2
          obtain ⟨ihf, ihr⟩ := ih hr
          refine ⟨List.Forall₂.cons (Or.inl ⟨hp, rm, hf⟩) ihf, ?_⟩
          intro r
          constructor
          · intro hmem
            rcases List.mem_append.mp hmem with hin | hin
            · cases rm with
              | none => simp at hin
              | some r0 =>
                simp only [Option.toList] at hin
                rw [List.mem_singleton] at hin
                subst hin
                exact ⟨m, by simp, hp, m', hf⟩
            · obtain ⟨mm, hmm, hpp, mm', hff⟩ := (ihr r).mp hin
              exact ⟨mm, by simp [hmm], hpp, mm', hff⟩
          · rintro ⟨mm, hmm, hpp, mm', hff⟩
            rcases List.mem_cons.mp hmm with rfl | hin
            · rw [hf] at hff
              injection hff with hff
              injection hff with _ h2
              subst h2
              simp
            · exact List.mem_append.mpr (Or.inr ((ihr r).mpr ⟨mm, hin, hpp, mm', hff⟩))
    · have hp' : pred m = false := by simpa using hp
      rw [hp'] at h
      simp only [Bool.false_eq_true, if_false] at h
      cases hr : applyToAffected pred f rest with
      | error e => rw [hr] at h; exact absurd h (by simp)
      | ok pr2 =>
        obtain ⟨rest', rms'⟩ := pr2
        rw [hr] at h
        simp only at h
        injection h with h
        injection h with h1 h2
        subst h1; subst h2
        obtain ⟨ihf, ihr⟩ := ih hr
        refine ⟨List.Forall₂.cons (Or.inr ⟨hp', rfl⟩) ihf, ?_⟩
        intro r
        constructor
        · intro hmem
          obtain ⟨mm, hmm, hpp, mm', hff⟩ := (ihr r).mp hmem
          exact ⟨mm, by simp [hmm], hpp, mm', hff⟩
        · rintro ⟨mm, hmm, hpp, mm', hff⟩
          rcases List.mem_cons.mp hmm with rfl | hin
          · rw [hp'] at hpp; exact absurd hpp (by simp)
          · exact (ihr r).mpr ⟨mm, hin, hpp, mm', hff⟩

theorem loadFinishedMetaStep_ok {sp : Nat} {m m' : RangeMeta} {rm : Option Region}
    (h : loadFinishedMetaStep sp m = .ok (m', rm)) :
    (m.state = RegionState.loading ∧
      m' = { m with state := RegionState.active, safePoint := sp } ∧ rm = none) ∨
    (m.state = RegionState.loadingCanceled ∧
      m' = { m with state := RegionState.evicting,
                    evictReason := some EvictReason.loadFailed } ∧ rm = some m.region) := by
  unfold loadFinishedMetaStep at h
  split_ifs at h with h1 h2
  · injection h with h; injection h with ha hb
    exact Or.inl ⟨h1, ha.symm, hb.symm⟩
  · injection h with h; injection h with ha hb
    exact Or.inr ⟨h2, ha.symm, hb.symm⟩

theorem loadFinishedMetaStepChecked_ok {range : KeyRange} {sp : Nat}
    {m m' : RangeMeta} {rm : Option Region}
    (h : loadFinishedMetaStepChecked range sp m = .ok (m', rm)) :
    (m.state = RegionState.loading ∧
      m' = { m with state := RegionState.active, safePoint := sp } ∧ rm = none) ∨
    (m.state = RegionState.loadingCanceled ∧
      m' = { m with state := RegionState.evicting,
                    evictReason := some EvictReason.loadFailed } ∧ rm = some m.region) := by
  unfold loadFinishedMetaStepChecked at h
  split_ifs at h with h1
  exact loadFinishedMetaStep_ok h

/-- C3: when on_snapshot_load_finished runs, every affected meta (the
region-id entry, or on epoch-version mismatch every overlapping meta) must be
in state Loading or LoadingCanceled, any other state being a fatal assertion
failure; a Loading meta becomes Active with the given safe point installed, a
LoadingCanceled meta becomes Evicting with reason LoadFailed and is scheduled
in a DeleteRegions task, and the function returns false (load canceled)
exactly when some affected meta was LoadingCanceled. -/
theorem on_snapshot_load_finished_spec (st : EngineSt) (region : Region) (sp : Nat) :
    (∀ st2 tasks ret, onSnapshotLoadFinished st region sp = .ok (st2, tasks, ret) →
      (∀ m ∈ st.regions, affectedPred st region m = true →
          m.state = RegionState.loading ∨ m.state = RegionState.loadingCanceled) ∧
      List.Forall₂ (fun m m' =>
        (affectedPred st region m = true ∧ m.state = RegionState.loading ∧
          m' = { m with state := RegionState.active, safePoint := sp }) ∨
        (affectedPred st region m = true ∧ m.state = RegionState.loadingCanceled ∧
          m' = { m with state := RegionState.evicting,
                        evictReason := some EvictReason.loadFailed }) ∨
        (affectedPred st region m = false ∧ m' = m)) st.regions st2.regions ∧
      (∃ rs, ret = rs.isEmpty ∧
        tasks = (if rs.isEmpty then [] else [BgTask.deleteRegions rs]) ∧
        ∀ r, r ∈ rs ↔ ∃ m ∈ st.regions, affectedPred st region m = true ∧
              m.state = RegionState.loadingCanceled ∧ r = m.region) ∧
      (ret = false ↔ ∃ m ∈ st.regions, affectedPred st region m = true ∧
          m.state = RegionState.loadingCanceled)) ∧
    ((∃ m ∈ st.regions, affectedPred st region m = true ∧
        m.state ≠ RegionState.loading ∧ m.state ≠ RegionState.loadingCanceled) →
      ∃ e, onSnapshotLoadFinished st region sp = .error e) := by
  have hstep : ∀ (step : RangeMeta → Except String (RangeMeta × Option Region)),
      (∀ {m m' rm}, step m = .ok (m', rm) →
        (m.state = RegionState.loading ∧
          m' = { m with state := RegionState.active, safePoint := sp } ∧ rm = none) ∨
        (m.state = RegionState.loadingCanceled ∧
          m' = { m with state := RegionState.evicting,
                        evictReason := some EvictReason.loadFailed } ∧ rm = some m.region)) →
      ∀ regions' removed,
        applyToAffected (affectedPred st region) step st.regions = .ok (regions', removed) →
      (∀ m ∈ st.regions, affectedPred st region m = true →
          m.state = RegionState.loading ∨ m.state = RegionState.loadingCanceled) ∧
      List.Forall₂ (fun m m' =>
        (affectedPred st region m = true ∧ m.state = RegionState.loading ∧
          m' = { m with state := RegionState.active, safePoint := sp }) ∨
        (affectedPred st region m = true ∧ m.state = RegionState.loadingCanceled ∧
          m' = { m with state := RegionState.evicting,
                        evictReason := some EvictReason.loadFailed }) ∨
        (affectedPred st region m = false ∧ m' = m)) st.regions regions' ∧
      (∀ r, r ∈ removed ↔ ∃ m ∈ st.regions, affectedPred st region m = true ∧
            m.state = RegionState.loadingCanceled ∧ r = m.region) := by
    intro step hok regions' removed happ
    obtain ⟨hfa, hrem⟩ := applyToAffected_ok_spec happ
    refine ⟨?_, ?_, ?_⟩
    · intro m hm hpred
      obtain ⟨m', hm', hrel⟩ := forall2_exists_right hfa hm
      rcases hrel with ⟨_, rm, hr⟩ | ⟨hp, _⟩
      · rcases hok hr with ⟨hs, _, _⟩ | ⟨hs, _, _⟩
        · exact Or.inl hs
        · exact Or.inr hs
      · rw [hpred] at hp; exact absurd hp (by simp)
    · refine List.Forall₂.imp ?_ hfa
      intro m m' hrel
      rcases hrel with ⟨hp, rm, hr⟩ | ⟨hp, he⟩
      · rcases hok hr with ⟨hs, hm', _⟩ | ⟨hs, hm', _⟩
        · exact Or.inl ⟨hp, hs, hm'⟩
        · exact Or.inr (Or.inl ⟨hp, hs, hm'⟩)
      · exact Or.inr (Or.inr ⟨hp, he⟩)
    · intro r
      rw [hrem r]
      constructor
      · rintro ⟨m, hm, hp, m', hf⟩
        rcases hok hf with ⟨_, _, hrm⟩ | ⟨hs, _, hrm⟩
        · exact absurd hrm (by simp)
        · injection hrm with hrm
          exact ⟨m, hm, hp, hs, hrm⟩
      · rintro ⟨m, hm, hp, hs, rfl⟩
        refine ⟨m, hm, hp, ?_⟩
        cases hf : step m with
        | error e =>
          exfalso
          obtain ⟨m2, hm2, hrel⟩ := forall2_exists_right hfa hm
          rcases hrel with ⟨_, rm, hr⟩ | ⟨hp2, _⟩
          · rw [hf] at hr; exact absurd hr (by simp)
          · rw [hp] at hp2; exact absurd hp2 (by simp)
        | ok pr =>
          obtain ⟨m', rm⟩ := pr
          rcases hok hf with ⟨hs2, _, _⟩ | ⟨_, hm'2, hrm⟩
          · rw [hs] at hs2; exact absurd hs2 (by simp)
          · subst hrm; subst hm'2
            exact ⟨_, rfl⟩
  constructor
  · intro st2 tasks ret h
    unfold onSnapshotLoadFinished at h
    cases hfind : findMeta st region.id with
    | none => rw [hfind] at h; exact absurd h (by simp)
    | some meta0 =>
      rw [hfind] at h
      simp only at h
      by_cases hep : meta0.region.epochVer = region.epochVer
      · rw [if_pos hep] at h
        cases happ : applyToAffected (affectedPred st region)
            (loadFinishedMetaStep sp) st.regions with
        | error e => rw [happ] at h; exact absurd h (by simp)
        | ok pr =>
          obtain ⟨regions', removed⟩ := pr
          rw [happ] at h
          simp only at h
          injection h with h
          simp only [Prod.mk.injEq] at h
          obtain ⟨h1, h2, h3⟩ := h
          subst h1
          subst h2
          subst h3
          obtain ⟨hspec1, hspec2, hspec3⟩ :=
            hstep (loadFinishedMetaStep sp) (fun h => loadFinishedMetaStep_ok h)
              regions' removed happ
          refine ⟨hspec1, hspec2, ⟨removed, rfl, rfl, hspec3⟩, ?_⟩
          cases removed with
          | nil =>
            constructor
            · intro hfalse
              simp at hfalse
            · rintro ⟨m, hm, hp, hs⟩
              have hmem := (hspec3 m.region).mpr ⟨m, hm, hp, hs, rfl⟩
              simp at hmem
          | cons r rs2 =>
            constructor
            · intro hx
              obtain ⟨m, hm, hp, hs, _⟩ := (hspec3 r).mp (by simp)
              exact ⟨m, hm, hp, hs⟩
            · intro hx
              rfl
      · rw [if_neg hep] at h
        cases happ : applyToAffected (affectedPred st region)
            (loadFinishedMetaStepChecked region.range sp) st.regions with
        | error e => rw [happ] at h; exact absurd h (by simp)
        | ok pr =>
          obtain ⟨regions', removed⟩ := pr
          rw [happ] at h
          simp only at h
          injection h with h
          simp only [Prod.mk.injEq] at h
          obtain ⟨h1, h2, h3⟩ := h
          subst h1
          subst h2
          subst h3
          obtain ⟨hspec1, hspec2, hspec3⟩ :=
            hstep (loadFinishedMetaStepChecked region.range sp)
              (fun h => loadFinishedMetaStepChecked_ok h) regions' removed happ
          refine ⟨hspec1, hspec2, ⟨removed, rfl, rfl, hspec3⟩, ?_⟩
          cases removed with
          | nil =>
            constructor
            · intro hfalse
              simp at hfalse
            · rintro ⟨m, hm, hp, hs⟩
              have hmem := (hspec3 m.region).mpr ⟨m, hm, hp, hs, rfl⟩
              simp at hmem
          | cons r rs2 =>
            constructor
            · intro hx
              obtain ⟨m, hm, hp, hs, _⟩ := (hspec3 r).mp (by simp)
              exact ⟨m, hm, hp, hs⟩
            · intro hx
              rfl
  · rintro ⟨m, hm, hp, hs1, hs2⟩
    cases hres : onSnapshotLoadFinished st region sp with
    | error e => exact ⟨e, rfl⟩
    | ok tr =>
      exfalso
      obtain ⟨st2, tasks, ret⟩ := tr
      have := (by
        unfold onSnapshotLoadFinished at hres
        cases hfind : findMeta st region.id with
        | none => rw [hfind] at hres; exact absurd hres (by simp)
        | some meta0 =>
          rw [hfind] at hres
          simp only at hres
          by_cases hep : meta0.region.epochVer = region.epochVer
          · rw [if_pos hep] at hres
            cases happ : applyToAffected (affectedPred st region)
                (loadFinishedMetaStep sp) st.regions with
            | error e => rw [happ] at hres; exact absurd hres (by simp)
            | ok pr =>
              obtain ⟨regions', removed⟩ := pr
              exact (hstep (loadFinishedMetaStep sp) (fun h => loadFinishedMetaStep_ok h)
                regions' removed happ).1
          · rw [if_neg hep] at hres
            cases happ : applyToAffected (affectedPred st region)
                (loadFinishedMetaStepChecked region.range sp) st.regions with
            | error e => rw [happ] at hres; exact absurd hres (by simp)
            | ok pr =>
              obtain ⟨regions', removed⟩ := pr
              exact (hstep (loadFinishedMetaStepChecked region.range sp)
                (fun h => loadFinishedMetaStepChecked_ok h) regions' removed happ).1 :
        ∀ m ∈ st.regions, affectedPred st region m = true →
          m.state = RegionState.loading ∨ m.state = RegionState.loadingCanceled)
      rcases this m hm hp with h | h
      · exact hs1 h
      · exact hs2 h

/-- Example fixture for on_snapshot_load_finished: one Loading meta whose
epoch version matches the loaded region. -/
def exLfRegion : Region := { id := 2, epochVer := 3, start := [0], stop := [5] }

def exLfMeta : RangeMeta :=
  { region := exLfRegion, state := RegionState.loading, safePoint := 0,
    inGc := false, snapshotTss := [], evictReason := none }

def exLfSt : EngineSt :=
  { regions := [exLfMeta], histRegions := [], rangesBeingWritten := [] }

theorem on_snapshot_load_finished_witness :
    onSnapshotLoadFinished exLfSt exLfRegion 42 =
      .ok ({ exLfSt with
             regions := [{ exLfMeta with state := RegionState.active, safePoint := 42 }] },
           [], true) ∧
    (∀ m ∈ exLfSt.regions, affectedPred exLfSt exLfRegion m = true →
        m.state = RegionState.loading ∨ m.state = RegionState.loadingCanceled) :=
  ⟨by rfl,
   (((on_snapshot_load_finished_spec exLfSt exLfRegion 42).1
      { exLfSt with
        regions := [{ exLfMeta with state := RegionState.active, safePoint := 42 }] }
      [] true (by rfl))).1⟩

/-! ## Memory controller and the LoadRegion task -/

/-- Modelled from the spec: the memory controller tracks used bytes with
a hard limit; acquire(n) is the only operation the loader calls. -/
structure MemCtl where
  used : Nat
  hardLimit : Nat
deriving DecidableEq, Repr

/-- Modelled from the spec: MemoryController::acquire(n) accounts n bytes and
answers HardLimitReached (true) when the hard limit is exceeded. -/
def MemCtl.acquire (mc : MemCtl) (n : Nat) : MemCtl × Bool :=
  let mc2 : MemCtl := { mc with used := mc.used + n }
  (mc2, decide (mc2.hardLimit < mc2.used))

/-- One key-value pair produced by the bounded disk-snapshot iteration during
a region load, tagged with its column family; `size` is the value
calc_put_entry_size reports for it (that helper lives outside src/). -/
structure LoadEntry where
  cf : Nat
  key : Bytes
  value : Bytes
  size : Nat
deriving DecidableEq, Repr

/-- The insertion loop of the LoadRegion task: before inserting each entry the
loader acquires its size from the memory controller; a HardLimitReached answer
stops the whole load.  Returns the final controller state, the entries
actually inserted, and whether the hard limit was hit. -/
def insertLoop (mc : MemCtl) : List LoadEntry → MemCtl × List LoadEntry × Bool
  | [] => (mc, [], false)
  | e :: rest =>
    let (mc2, hit) := mc.acquire e.size
    if hit then (mc2, [], true)
    else
      let (mc3, ins, b) := insertLoop mc2 rest
      (mc3, e :: ins, b)

/-- How a LoadRegion task ends. -/
inductive LoadOutcome where
  | canceledBeforeStart
  | hardLimitStopped (inserted : List LoadEntry)
  | finished (inserted : List LoadEntry) (filterSafePoint : Option Nat) (loadOk : Bool)
deriving DecidableEq, Repr

/-- The engine state after the loader's initial state check: a ReadyToLoad
meta is moved to Loading; otherwise the state is left alone. -/
def stAfterStateCheck (st : EngineSt) (region : Region) (meta : RangeMeta) : EngineSt :=
  if meta.state = RegionState.readyToLoad then
    setMeta st region.id { meta with state := RegionState.loading }
  else st

/-- The BackgroundTask::LoadRegion handler of BackgroundRunner::run.  Under
the write lock it requires the meta to be ReadyToLoad (moving it to Loading);
any other observed state is asserted to be LoadingCanceled and cancels the
load, as does the memory controller already having reached the soft limit
(`reachedSoft`, read from the controller).  A canceled load calls
on_snapshot_load_failed with started = false before any insertion.  Otherwise
the snapshot entries are inserted one by one, acquiring memory first; a
HardLimitReached answer stops the load and calls on_snapshot_load_failed with
started = true.  On full ingestion a timestamp is fetched (bounded by
min(gc_interval, 5 s)); on success the Filter runs at safe point
compose(physical saturating-minus gc_interval_ms, 0), on failure the Filter is
skipped and safe point 0 is used; finally on_snapshot_load_finished installs
the safe point.  The skiplist columns the insertions and the Filter touch are
modelled separately. -/
def loadRegionTask (st : EngineSt) (mc : MemCtl) (region : Region)
    (entries : List LoadEntry) (reachedSoft : Bool) (tso : Option TsTime)
    (gcIntervalMs : Nat) :
    Except String (EngineSt × MemCtl × List BgTask × LoadOutcome) :=
  match findMeta st region.id with
  | none => .error "mut_region_meta: no meta for region"
  | some meta =>
    let stateRes : Except String (EngineSt × Bool) :=
      if meta.state ≠ RegionState.readyToLoad then
        if meta.state = RegionState.loadingCanceled then .ok (st, true)
        else .error "load task: observed state is neither ReadyToLoad nor LoadingCanceled"
      else .ok (setMeta st region.id { meta with state := RegionState.loading }, false)
    match stateRes with
    | .error e => .error e
    | .ok (st1, canceledByState) =>
      if canceledByState || reachedSoft then
        match onSnapshotLoadFailed st1 region false with
        | .error e => .error e
        | .ok (st2, tasks) => .ok (st2, mc, tasks, .canceledBeforeStart)
      else
        let (mc2, inserted, hit) := insertLoop mc entries
        if hit then
          match onSnapshotLoadFailed st1 region true with
          | .error e => .error e
          | .ok (st2, tasks) => .ok (st2, mc2, tasks, .hardLimitStopped inserted)
        else
          let sp := match tso with
            | none => 0
            | some now => tsCompose (now.physical - gcIntervalMs) 0
          match onSnapshotLoadFinished st1 region sp with
          | .error e => .error e
          | .ok (st2, tasks, ret) =>
            .ok (st2, mc2, tasks, .finished inserted (tso.map (fun _ => sp)) ret)

theorem loadFailedMetaStep_ok {started : Bool} {m m' : RangeMeta} {rm : Option Region}
    (h : loadFailedMetaStep started m = .ok (m', rm)) :
    (m.state = RegionState.loading ∨ m.state = RegionState.loadingCanceled) ∧
    m' = { m with state := RegionState.evicting,
                  evictReason := some (if started then EvictReason.loadFailed
                                else EvictReason.loadFailedWithoutStart) } ∧
    rm = some m.region := by
  unfold loadFailedMetaStep at h
  split_ifs at h with h1 h2
  · injection h with h
    injection h with ha hb
    refine ⟨h1, ?_, hb.symm⟩
    rw [← ha]
    simp [h2]
  · injection h with h
    injection h with ha hb
    refine ⟨h1, ?_, hb.symm⟩
    rw [← ha]
    simp [h2]

theorem loadFailedMetaStepChecked_ok {range : KeyRange} {started : Bool}
    {m m' : RangeMeta} {rm : Option Region}
    (h : loadFailedMetaStepChecked range started m = .ok (m', rm)) :
    (m.state = RegionState.loading ∨ m.state = RegionState.loadingCanceled) ∧
    m' = { m with state := RegionState.evicting,
                  evictReason := some (if started then EvictReason.loadFailed
                                else EvictReason.loadFailedWithoutStart) } ∧
    rm = some m.region := by
  unfold loadFailedMetaStepChecked at h
  split_ifs at h with h1
  exact loadFailedMetaStep_ok h

theorem onSnapshotLoadFailed_ok_spec (st : EngineSt) (region : Region)
    (started : Bool) (st2 : EngineSt) (tasks : List BgTask)
    (h : onSnapshotLoadFailed st region started = .ok (st2, tasks)) :
    List.Forall₂ (fun m m' =>
      (affectedPred st region m = true ∧
        (m.state = RegionState.loading ∨ m.state = RegionState.loadingCanceled) ∧
        m' = { m with state := RegionState.evicting,
                      evictReason := some (if started then EvictReason.loadFailed
                                    else EvictReason.loadFailedWithoutStart) }) ∨
      (affectedPred st region m = false ∧ m' = m)) st.regions st2.regions ∧
    (∃ rs, tasks = [BgTask.deleteRegions rs] ∧
      ∀ r, r ∈ rs ↔ ∃ m ∈ st.regions, affectedPred st region m = true ∧ r = m.region) := by
  have hstep : ∀ (step : RangeMeta → Except String (RangeMeta × Option Region)),
      (∀ {m m' rm}, step m = .ok (m', rm) →
        (m.state = RegionState.loading ∨ m.state = RegionState.loadingCanceled) ∧
        m' = { m with state := RegionState.evicting,
                      evictReason := some (if started then EvictReason.loadFailed
                                    else EvictReason.loadFailedWithoutStart) } ∧
        rm = some m.region) →
      ∀ regions' removed,
        applyToAffected (affectedPred st region) step st.regions = .ok (regions', removed) →
      List.Forall₂ (fun m m' =>
        (affectedPred st region m = true ∧
          (m.state = RegionState.loading ∨ m.state = RegionState.loadingCanceled) ∧
          m' = { m with state := RegionState.evicting,
                        evictReason := some (if started then EvictReason.loadFailed
                                      else EvictReason.loadFailedWithoutStart) }) ∨
        (affectedPred st region m = false ∧ m' = m)) st.regions regions' ∧
      (∀ r, r ∈ removed ↔ ∃ m ∈ st.regions, affectedPred st region m = true ∧ r = m.region) := by
    intro step hok regions' removed happ
    obtain ⟨hfa, hrem⟩ := applyToAffected_ok_spec happ
    constructor
    · refine List.Forall₂.imp ?_ hfa
      intro m m' hrel
      rcases hrel with ⟨hp, rm, hr⟩ | ⟨hp, he⟩
      · obtain ⟨hs, hm', _⟩ := hok hr
        exact Or.inl ⟨hp, hs, hm'⟩
      · exact Or.inr ⟨hp, he⟩
    · intro r
      rw [hrem r]
      constructor
      · rintro ⟨m, hm, hp, m', hf⟩
        obtain ⟨_, _, hrm⟩ := hok hf
        injection hrm with hrm
        exact ⟨m, hm, hp, hrm⟩
      · rintro ⟨m, hm, hp, rfl⟩
        refine ⟨m, hm, hp, ?_⟩
        cases hf : step m with
        | error e =>
          exfalso
          obtain ⟨m2, hm2, hrel⟩ := forall2_exists_right hfa hm
          rcases hrel with ⟨_, rm, hr⟩ | ⟨hp2, _⟩
          · rw [hf] at hr; exact absurd hr (by simp)
          · rw [hp] at hp2; exact absurd hp2 (by simp)
        | ok pr =>
          obtain ⟨m', rm⟩ := pr
          obtain ⟨_, hm'2, hrm⟩ := hok hf
          subst hrm; subst hm'2
          exact ⟨_, rfl⟩
  unfold onSnapshotLoadFailed at h
  cases hfind : findMeta st region.id with
  | none => rw [hfind] at h; exact absurd h (by simp)
  | some meta0 =>
    rw [hfind] at h
    simp only at h
    by_cases hep : meta0.region.epochVer = region.epochVer
    · rw [if_pos hep] at h
      cases happ : applyToAffected (affectedPred st region)
          (loadFailedMetaStep started) st.regions with
      | error e => rw [happ] at h; exact absurd h (by simp)
      | ok pr =>
        obtain ⟨regions', removed⟩ := pr
        rw [happ] at h
        simp only at h
        injection h with h
        simp only [Prod.mk.injEq] at h
        obtain ⟨h1, h2⟩ := h
        subst h1
        subst h2
        obtain ⟨hs1, hs2⟩ :=
          hstep (loadFailedMetaStep started) (fun h => loadFailedMetaStep_ok h)
            regions' removed happ
        exact ⟨hs1, removed, rfl, hs2⟩
    · rw [if_neg hep] at h
      cases happ : applyToAffected (affectedPred st region)
          (loadFailedMetaStepChecked region.range started) st.regions with
      | error e => rw [happ] at h; exact absurd h (by simp)
      | ok pr =>
        obtain ⟨regions', removed⟩ := pr
        rw [happ] at h
        simp only at h
        injection h with h
        simp only [Prod.mk.injEq] at h
        obtain ⟨h1, h2⟩ := h
        subst h1
        subst h2
        obtain ⟨hs1, hs2⟩ :=
          hstep (loadFailedMetaStepChecked region.range started)
            (fun h => loadFailedMetaStepChecked_ok h) regions' removed happ
        exact ⟨hs1, removed, rfl, hs2⟩

/-- C4: for every LoadRegion task, when the observed state is not ReadyToLoad
(it is then asserted to be LoadingCanceled, anything else being fatal) or the
memory controller has already reached the soft limit, the load is canceled
before any insertion and on_snapshot_load_failed with started = false marks
the affected metas Evicting with reason LoadFailedWithoutStart and emits a
DeleteRegions task; when instead an acquire during insertion answers
HardLimitReached, loading stops at that entry and on_snapshot_load_failed with
started = true marks the affected metas Evicting with reason LoadFailed and
emits a DeleteRegions task. -/
theorem load_region_task_spec (st : EngineSt) (mc : MemCtl) (region : Region)
    (entries : List LoadEntry) (reachedSoft : Bool) (tso : Option TsTime)
    (gcIntervalMs : Nat) (meta : RangeMeta)
    (hfind : findMeta st region.id = some meta) :
    (meta.state ≠ RegionState.readyToLoad → meta.state ≠ RegionState.loadingCanceled →
      ∃ e, loadRegionTask st mc region entries reachedSoft tso gcIntervalMs = .error e) ∧
    (∀ st2 mc2 tasks out,
      loadRegionTask st mc region entries reachedSoft tso gcIntervalMs =
        .ok (st2, mc2, tasks, out) →
      ((meta.state = RegionState.loadingCanceled ∨ reachedSoft = true) →
        out = LoadOutcome.canceledBeforeStart ∧ mc2 = mc ∧
        List.Forall₂ (fun m m' =>
          (affectedPred (stAfterStateCheck st region meta) region m = true ∧
            (m.state = RegionState.loading ∨ m.state = RegionState.loadingCanceled) ∧
            m' = { m with state := RegionState.evicting,
                          evictReason := some EvictReason.loadFailedWithoutStart }) ∨
          (affectedPred (stAfterStateCheck st region meta) region m = false ∧ m' = m))
          (stAfterStateCheck st region meta).regions st2.regions ∧
        (∃ rs, tasks = [BgTask.deleteRegions rs] ∧
          ∀ r, r ∈ rs ↔ ∃ m ∈ (stAfterStateCheck st region meta).regions,
                affectedPred (stAfterStateCheck st region meta) region m = true ∧
                r = m.region)) ∧
      (meta.state = RegionState.readyToLoad → reachedSoft = false →
        (insertLoop mc entries).2.2 = true →
        out = LoadOutcome.hardLimitStopped (insertLoop mc entries).2.1 ∧
        mc2 = (insertLoop mc entries).1 ∧
        List.Forall₂ (fun m m' =>
          (affectedPred (stAfterStateCheck st region meta) region m = true ∧
            (m.state = RegionState.loading ∨ m.state = RegionState.loadingCanceled) ∧
            m' = { m with state := RegionState.evicting,
                          evictReason := some EvictReason.loadFailed }) ∨
          (affectedPred (stAfterStateCheck st region meta) region m = false ∧ m' = m))
          (stAfterStateCheck st region meta).regions st2.regions ∧
        (∃ rs, tasks = [BgTask.deleteRegions rs] ∧
          ∀ r, r ∈ rs ↔ ∃ m ∈ (stAfterStateCheck st region meta).regions,
                affectedPred (stAfterStateCheck st region meta) region m = true ∧
                r = m.region))) := by
  constructor
  · intro hs1 hs2
    refine ⟨"load task: observed state is neither ReadyToLoad nor LoadingCanceled", ?_⟩
    unfold loadRegionTask
    rw [hfind]
    simp [hs1, hs2]
  · intro st2 mc2 tasks out h
    unfold loadRegionTask at h
    rw [hfind] at h
    simp only at h
    by_cases hready : meta.state = RegionState.readyToLoad
    · have hnl : ¬meta.state ≠ RegionState.readyToLoad := by simpa using hready
      rw [if_neg hnl] at h
      simp only at h
      have hsac : stAfterStateCheck st region meta =
          setMeta st region.id { meta with state := RegionState.loading } := by
        unfold stAfterStateCheck
        rw [if_pos hready]
      constructor
      · intro hcanc
        have hsoft : reachedSoft = true := by
          rcases hcanc with hc | hc
          · rw [hready] at hc; exact absurd hc (by simp)
          · exact hc
        rw [hsoft] at h
        simp only [Bool.false_or] at h
        rw [if_pos (by trivial)] at h
        cases hfail : onSnapshotLoadFailed
            (setMeta st region.id { meta with state := RegionState.loading }) region false with
        | error e => rw [hfail] at h; exact absurd h (by simp)
        | ok pr =>
          obtain ⟨stf, tasksf⟩ := pr
          rw [hfail] at h
          simp only at h
          injection h with h
          simp only [Prod.mk.injEq] at h
          obtain ⟨h1, h2, h3, h4⟩ := h
          subst h1; subst h2; subst h3; subst h4
          have hspec := onSnapshotLoadFailed_ok_spec _ region false stf tasksf hfail
          rw [hsac]
          simp only [Bool.false_eq_true, if_false] at hspec
          exact ⟨rfl, rfl, hspec.1, hspec.2⟩
      · intro _ hsoft hhit
        rw [hsoft] at h
        simp only [Bool.or_false] at h
        rw [if_neg (by simp)] at h
        rcases hIL : insertLoop mc entries with ⟨mcI, insI, hitI⟩
        rw [hIL] at h
        simp only at h
        rw [hIL] at hhit
        simp only at hhit
        rw [hhit] at h
        rw [if_pos (by trivial)] at h
        cases hfail : onSnapshotLoadFailed
            (setMeta st region.id { meta with state := RegionState.loading }) region true with
        | error e => rw [hfail] at h; exact absurd h (by simp)
        | ok pr =>
          obtain ⟨stf, tasksf⟩ := pr
          rw [hfail] at h
          simp only at h
          injection h with h
          simp only [Prod.mk.injEq] at h
          obtain ⟨h1, h2, h3, h4⟩ := h
          subst h1; subst h2; subst h3; subst h4
          have hspec := onSnapshotLoadFailed_ok_spec _ region true stf tasksf hfail
          rw [hsac]
          simp only [eq_self_iff_true, if_true] at hspec
          exact ⟨rfl, rfl, hspec.1, hspec.2⟩
    · have hnl : meta.state ≠ RegionState.readyToLoad := hready
      rw [if_pos hnl] at h
      by_cases hlc : meta.state = RegionState.loadingCanceled
      · rw [if_pos hlc] at h
        simp only [Bool.true_or] at h
        rw [if_pos (by trivial)] at h
        have hsac : stAfterStateCheck st region meta = st := by
          unfold stAfterStateCheck
          rw [if_neg hready]
        constructor
        · intro _
          cases hfail : onSnapshotLoadFailed st region false with
          | error e => rw [hfail] at h; exact absurd h (by simp)
          | ok pr =>
            obtain ⟨stf, tasksf⟩ := pr
            rw [hfail] at h
            simp only at h
            injection h with h
            simp only [Prod.mk.injEq] at h
            obtain ⟨h1, h2, h3, h4⟩ := h
            subst h1; subst h2; subst h3; subst h4
            have hspec := onSnapshotLoadFailed_ok_spec _ region false stf tasksf hfail
            rw [hsac]
            simp only [Bool.false_eq_true, if_false] at hspec
            exact ⟨rfl, rfl, hspec.1, hspec.2⟩
        · intro hr
          exact absurd hr hready
      · rw [if_neg hlc] at h
        exact absurd h (by simp)

/-- Example fixture for the LoadRegion task: a ReadyToLoad region whose second
entry drives the memory controller over the hard limit. -/
def exLdRegion : Region := { id := 5, epochVer := 1, start := [0], stop := [9] }

def exLdMeta : RangeMeta :=
  { region := exLdRegion, state := RegionState.readyToLoad, safePoint := 0,
    inGc := false, snapshotTss := [], evictReason := none }

def exLdSt : EngineSt :=
  { regions := [exLdMeta], histRegions := [], rangesBeingWritten := [] }

def exLdMc : MemCtl := { used := 0, hardLimit := 10 }

def exLdEntries : List LoadEntry :=
  [{ cf := 0, key := [1], value := [], size := 6 },
   { cf := 0, key := [2], value := [], size := 6 }]

theorem load_region_task_spec_witness :
    findMeta exLdSt exLdRegion.id = some exLdMeta ∧
    LoadOutcome.hardLimitStopped [({ cf := 0, key := [1], value := [], size := 6 } : LoadEntry)] =
      LoadOutcome.hardLimitStopped (insertLoop exLdMc exLdEntries).2.1 :=
  ⟨by decide,
   (((load_region_task_spec exLdSt exLdMc exLdRegion exLdEntries false none 100 exLdMeta
        (by decide)).2
      { exLdSt with
        regions := [{ exLdMeta with
                      state := RegionState.evicting,
                      evictReason := some EvictReason.loadFailed }] }
      { used := 12, hardLimit := 10 }
      [BgTask.deleteRegions [exLdRegion]]
      (LoadOutcome.hardLimitStopped [{ cf := 0, key := [1], value := [], size := 6 }])
      (by rfl)).2 (by decide) rfl (by rfl)).1⟩

/-! ## DeleteRangeRunner -/

/-- The three logical columns of the skiplist engine, each modelled by its set
of keys (values are irrelevant to range deletion). -/
structure SkiplistCols where
  defaultCf : List Bytes
  lockCf : List Bytes
  writeCf : List Bytes
deriving DecidableEq, Repr

/-- Membership of a key in a half-open range. -/
def inKeyRange (range : KeyRange) (k : Bytes) : Bool :=
  bytesLe range.start k && bytesLt k range.stop

/-- Modelled from the spec: SkiplistEngine::delete_range (engine.rs is outside
src/): physically erase every key of the range from every logical column. -/
def skiplistDeleteRange (cols : SkiplistCols) (range : KeyRange) : SkiplistCols :=
  { defaultCf := cols.defaultCf.filter (fun k => !(inKeyRange range k)),
    lockCf := cols.lockCf.filter (fun k => !(inKeyRange range k)),
    writeCf := cols.writeCf.filter (fun k => !(inKeyRange range k)) }

/-- Modelled from the spec: RangeManager::on_delete_regions (outside src/):
the deleted regions leave the manager. -/
def onDeleteRegions (st : EngineSt) (regions : List Region) : EngineSt :=
  { st with
    regions := st.regions.filter (fun m => !(regions.any (fun r => r.id == m.region.id))) }

/-- The state owned by the DeleteRangeRunner: the shared engine state, the
skiplist columns and the runner's private queue of delayed regions. -/
structure DrState where
  engine : EngineSt
  cols : SkiplistCols
  delayRegions : List Region
deriving DecidableEq, Repr

/-- The partition loop of DeleteRangeRunner::run: each region must have a meta
with the same epoch version in state Evicting (assertion failures are fatal);
a region whose meta is in gc or whose range overlaps a range being written is
delayed, every other region is deleted this run. -/
def drPartition (st : EngineSt) : List Region → Except String (List Region × List Region)
  | [] => .ok ([], [])
  | r :: rest =>
    match findMeta st r.id with
    | none => .error "delete range: region_meta unwrap failed"
    | some m =>
      if m.region.epochVer ≠ r.epochVer then
        .error "delete range: epoch version mismatch"
      else if m.state ≠ RegionState.evicting then
        .error "delete range: region state is not Evicting"
      else
        match drPartition st rest with
        | .error e => .error e
        | .ok (delay, del) =>
          if m.inGc || st.rangesBeingWritten.any (fun w => m.range.overlaps w) then
            .ok (r :: delay, del)
          else
            .ok (delay, r :: del)

/-- DeleteRangeRunner::delete_regions: apply skiplist delete_range for each
region's range on every logical column, then notify the region manager. -/
def drDeleteRegions (s : DrState) (regions : List Region) : DrState :=
  { s with
    cols := regions.foldl (fun c r => skiplistDeleteRange c r.range) s.cols,
    engine := onDeleteRegions s.engine regions }

/-- DeleteRangeRunner::run on a DeleteRegions task. -/
def drRun (s : DrState) (regions : List Region) : Except String DrState :=
  match drPartition s.engine regions with
  | .error e => .error e
  | .ok (delay, del) =>
    let s1 := { s with delayRegions := s.delayRegions ++ delay }
    if del.isEmpty then .ok s1 else .ok (drDeleteRegions s1 del)

/-- RunnableWithTimer::get_interval of DeleteRangeRunner, in milliseconds. -/
def drIntervalMs : Nat := 500

/-- RunnableWithTimer::on_timeout of DeleteRangeRunner: re-run the task over
the delayed regions, doing nothing when there are none. -/
def drOnTimeout (s : DrState) : Except String DrState :=
  if s.delayRegions.isEmpty then .ok s
  else drRun { s with delayRegions := [] } s.delayRegions

/-- Whether DeleteRangeRunner::run defers a region of the task. -/
def shouldDelay (st : EngineSt) (r : Region) : Bool :=
  match findMeta st r.id with
  | some m => m.inGc || st.rangesBeingWritten.any (fun w => m.range.overlaps w)
  | none => false

theorem drPartition_ok (st : EngineSt) :
    ∀ (regions delay del : List Region), drPartition st regions = .ok (delay, del) →
    delay = regions.filter (shouldDelay st) ∧
    del = regions.filter (fun r => !(shouldDelay st r)) ∧
    ∀ r ∈ regions, ∃ m, findMeta st r.id = some m ∧
      m.region.epochVer = r.epochVer ∧ m.state = RegionState.evicting := by
  intro regions
  induction regions with
  | nil =>
    intro delay del h
    simp only [drPartition] at h
    injection h with h
    simp only [Prod.mk.injEq] at h
    obtain ⟨h1, h2⟩ := h
    subst h1; subst h2
    simp
  | cons r rest ih =>
    intro delay del h
    simp only [drPartition] at h
    cases hm : findMeta st r.id with
    | none => rw [hm] at h; exact absurd h (by simp)
    | some m =>
      rw [hm] at h
      simp only at h
      by_cases he : m.region.epochVer ≠ r.epochVer
      · rw [if_pos he] at h
        exact absurd h (by simp)
      · rw [if_neg he] at h
        by_cases hs : m.state ≠ RegionState.evicting
        · rw [if_pos hs] at h
          exact absurd h (by simp)
        · rw [if_neg hs] at h
          cases hp : drPartition st rest with
          | error e =>
            rw [hp] at h
            exact absurd h (by simp)
          | ok pr =>
            obtain ⟨delay', del'⟩ := pr
            rw [hp] at h
            simp only at h
            obtain ⟨hd1, hd2, hd3⟩ := ih delay' del' hp
            have hdelay : shouldDelay st r =
                (m.inGc || st.rangesBeingWritten.any (fun w => m.range.overlaps w)) := by
              unfold shouldDelay
              rw [hm]
            by_cases hc : (m.inGc || st.rangesBeingWritten.any
                (fun w => m.range.overlaps w)) = true
            · rw [if_pos hc] at h
              injection h with h
              simp only [Prod.mk.injEq] at h
              obtain ⟨h1, h2⟩ := h
              subst h1
              subst h2
              refine ⟨?_, ?_, ?_⟩
              · rw [List.filter_cons, hdelay, hc, if_pos (by trivial), hd1]
              · rw [List.filter_cons, hdelay, hc]
                simp only [Bool.not_true, Bool.false_eq_true, if_false]
                exact hd2
              · intro r2 hr2
                rcases List.mem_cons.mp hr2 with rfl | hr2
                · refine ⟨m, hm, ?_, ?_⟩
                  · by_contra hne
                    exact he hne
                  · by_contra hne
                    exact hs hne
                · exact hd3 r2 hr2
            · have hc' : (m.inGc || st.rangesBeingWritten.any
                  (fun w => m.range.overlaps w)) = false := by
                simpa using hc
              rw [if_neg (by simp [hc'])] at h
              injection h with h
              simp only [Prod.mk.injEq] at h
              obtain ⟨h1, h2⟩ := h
              subst h1
              subst h2
              refine ⟨?_, ?_, ?_⟩
              · rw [List.filter_cons, hdelay, hc']
                simp only [Bool.false_eq_true, if_false]
                exact hd1
              · rw [List.filter_cons, hdelay, hc']
                simp only [Bool.not_false, if_true]
                rw [hd2]
              · intro r2 hr2
                rcases List.mem_cons.mp hr2 with rfl | hr2
                · refine ⟨m, hm, ?_, ?_⟩
                  · by_contra hne
                    exact he hne
                  · by_contra hne
                    exact hs hne
                · exact hd3 r2 hr2

theorem onDeleteRegions_nil (st : EngineSt) : onDeleteRegions st [] = st := by
  unfold onDeleteRegions
  simp

/-- C5: a DeleteRegions task partitions its regions: those whose meta has
in_gc set or whose range overlaps a registered range being written are moved
to the delayed queue and not erased in this run; every other region has
skiplist delete_range applied to its range on every logical column and is then
reported to the region manager via on_delete_regions; consequently no region
erased in the run overlaps any range being written; the delayed queue is
re-run by the 500 ms timer. -/
theorem delete_range_runner_spec (s : DrState) (regions : List Region) (s' : DrState)
    (h : drRun s regions = .ok s') :
    s'.delayRegions = s.delayRegions ++ regions.filter (shouldDelay s.engine) ∧
    s'.cols = (regions.filter (fun r => !(shouldDelay s.engine r))).foldl
        (fun c r => skiplistDeleteRange c r.range) s.cols ∧
    s'.engine = onDeleteRegions s.engine
        (regions.filter (fun r => !(shouldDelay s.engine r))) ∧
    (∀ r ∈ regions, shouldDelay s.engine r = false →
       ∀ m, findMeta s.engine r.id = some m →
         ∀ w ∈ s.engine.rangesBeingWritten, m.range.overlaps w = false) ∧
    drIntervalMs = 500 ∧
    (s'.delayRegions.isEmpty = true → drOnTimeout s' = .ok s') ∧
    (s'.delayRegions.isEmpty = false →
       drOnTimeout s' = drRun { s' with delayRegions := [] } s'.delayRegions) := by
  have hsafety : ∀ r ∈ regions, shouldDelay s.engine r = false →
      ∀ m, findMeta s.engine r.id = some m →
        ∀ w ∈ s.engine.rangesBeingWritten, m.range.overlaps w = false := by
    intro r _ hfalse m hm w hw
    unfold shouldDelay at hfalse
    rw [hm] at hfalse
    simp only [Bool.or_eq_false_iff] at hfalse
    have := List.any_eq_false.mp hfalse.2
    simpa using this w hw
  have htimer1 : ∀ sD : DrState, sD.delayRegions.isEmpty = true → drOnTimeout sD = .ok sD := by
    intro sD hD
    unfold drOnTimeout
    rw [if_pos hD]
  have htimer2 : ∀ sD : DrState, sD.delayRegions.isEmpty = false →
      drOnTimeout sD = drRun { sD with delayRegions := [] } sD.delayRegions := by
    intro sD hD
    unfold drOnTimeout
    rw [if_neg (by simp [hD])]
  unfold drRun at h
  cases hp : drPartition s.engine regions with
  | error e =>
    rw [hp] at h
    exact absurd h (by simp)
  | ok pr =>
    obtain ⟨delay, del⟩ := pr
    rw [hp] at h
    simp only at h
    obtain ⟨hd1, hd2, hd3⟩ := drPartition_ok s.engine regions delay del hp
    by_cases hdel : del.isEmpty = true
    · rw [if_pos hdel] at h
      injection h with h
      subst h
      have hdelnil : del = [] := by
        cases del with
        | nil => rfl
        | cons a l => simp at hdel
      rw [hdelnil] at hd2
      refine ⟨by rw [hd1], ?_, ?_, hsafety, rfl, htimer1 _, htimer2 _⟩
      · rw [← hd2]
        rfl
      · rw [← hd2]
        exact (onDeleteRegions_nil s.engine).symm
    · rw [if_neg hdel] at h
      injection h with h
      subst h
      subst hd1
      subst hd2
      exact ⟨by simp [drDeleteRegions], rfl, rfl, hsafety, rfl, htimer1 _, htimer2 _⟩

/-- Example fixture for the DeleteRangeRunner: two Evicting regions, the
first in gc (delayed), the second clear of writers (deleted). -/
def exDrRegionA : Region := { id := 7, epochVer := 1, start := [0], stop := [3] }

def exDrRegionB : Region := { id := 8, epochVer := 2, start := [4], stop := [8] }

def exDrSt : EngineSt :=
  { regions :=
      [{ region := exDrRegionA, state := RegionState.evicting, safePoint := 0,
         inGc := true, snapshotTss := [], evictReason := some EvictReason.autoEvict },
       { region := exDrRegionB, state := RegionState.evicting, safePoint := 0,
         inGc := false, snapshotTss := [], evictReason := some EvictReason.autoEvict }],
    histRegions := [], rangesBeingWritten := [] }

def exDrState : DrState :=
  { engine := exDrSt,
    cols := { defaultCf := [[1], [5]], lockCf := [], writeCf := [[2], [6]] },
    delayRegions := [] }

theorem delete_range_runner_spec_witness :
    drRun exDrState [exDrRegionA, exDrRegionB] =
      .ok { engine := onDeleteRegions exDrSt [exDrRegionB],
            cols := { defaultCf := [[1]], lockCf := [], writeCf := [[2]] },
            delayRegions := [exDrRegionA] } ∧
    drIntervalMs = 500 :=
  ⟨by rfl,
   (delete_range_runner_spec exDrState [exDrRegionA, exDrRegionB]
      { engine := onDeleteRegions exDrSt [exDrRegionB],
        cols := { defaultCf := [[1]], lockCf := [], writeCf := [[2]] },
        delayRegions := [exDrRegionA] }
      (by rfl)).2.2.2.2.1⟩

/-! ## Grouped key sequences

The skiplist iterates keys in byte order; the memcomparable key encoding makes
every run of entries sharing a user key (or an mvcc key prefix) contiguous.
The scans below only need that contiguity, captured by `groupedKeys`. -/

/-- Equal elements of the list appear contiguously: each head's whole run is
dropped and the head never reappears later. -/
def groupedKeys : List Bytes → Bool
  | [] => true
  | k :: rest =>
    let rest2 := rest.dropWhile (fun x => x = k)
    groupedKeys rest2 && rest2.all (fun x => x ≠ k)
termination_by l => l.length
decreasing_by
  simp only [List.length_cons]
  have := (List.dropWhile_sublist (l := rest) (fun x => decide (x = k))).length_le
  omega

theorem groupedKeys_cons_self (k : Bytes) (l : List Bytes) :
    groupedKeys (k :: k :: l) = groupedKeys (k :: l) := by
  rw [groupedKeys, groupedKeys]
  simp only [List.dropWhile_cons]
  rw [if_pos (by simp)]

theorem groupedKeys_tail (a : Bytes) (l : List Bytes)
    (h : groupedKeys (a :: l) = true) : groupedKeys l = true := by
  rw [groupedKeys] at h
  simp only [Bool.and_eq_true] at h
  obtain ⟨hg, hall⟩ := h
  have hsplit := (List.takeWhile_append_dropWhile (p := fun x => decide (x = a)) (l := l)).symm
  rw [hsplit]
  generalize htw : l.takeWhile (fun x => decide (x = a)) = tw
  generalize hdw : l.dropWhile (fun x => decide (x = a)) = dw
  rw [htw, hdw] at hsplit
  rw [hdw] at hg hall
  have htwall : ∀ x ∈ tw, x = a := by
    intro x hx
    rw [← htw] at hx
    have := List.mem_takeWhile_imp hx
    simpa using this
  have hdwhead : dw.dropWhile (fun x => decide (x = a)) = dw := by
    cases dw with
    | nil => rfl
    | cons d ds =>
      rw [List.dropWhile_cons]
      rw [if_neg ?_]
      have hd : d ≠ a := by
        have := List.all_eq_true.mp hall d (by simp)
        simpa using this
      simp [hd]
  clear hsplit htw
  induction tw with
  | nil => simpa using hg
  | cons t tws ih =>
    have hta : t = a := htwall t (by simp)
    rw [List.cons_append, groupedKeys]
    simp only [Bool.and_eq_true]
    have hdrop : (tws ++ dw).dropWhile (fun x => x = t) = dw := by
      rw [hta]
      rw [List.dropWhile_append]
      have htws : tws.dropWhile (fun x => decide (x = a)) = [] := by
        rw [List.dropWhile_eq_nil_iff]
        intro x hx
        simp [htwall x (by simp [hx])]
      rw [htws]
      simpa using hdwhead
    rw [hdrop]
    constructor
    · exact hg
    · rw [hta]
      exact hall

theorem groupedKeys_head_sandwich (k : Bytes) :
    ∀ (B C : List Bytes), groupedKeys (k :: (B ++ k :: C)) = true →
    ∀ x ∈ B, x = k := by
  intro B
  induction B with
  | nil => intro C _ x hx; simp at hx
  | cons b B' ih =>
    intro C h x hx
    by_cases hb : b = k
    · subst hb
      rcases List.mem_cons.mp hx with rfl | hx2
      · rfl
      · have h2 : groupedKeys (b :: (B' ++ b :: C)) = true := by
          have := groupedKeys_cons_self b (B' ++ b :: C)
          rw [← this]
          simpa using h
        exact ih C h2 x hx2
    · exfalso
      rw [groupedKeys] at h
      simp only [Bool.and_eq_true] at h
      have hdrop : (b :: (B' ++ k :: C)).dropWhile (fun x => x = k) = b :: (B' ++ k :: C) := by
        rw [List.dropWhile_cons]
        rw [if_neg (by simp [hb])]
      rw [List.cons_append] at h
      rw [hdrop] at h
      have := List.all_eq_true.mp h.2 k (by simp)
      simp at this

theorem groupedKeys_sandwich :
    ∀ (A : List Bytes) (k : Bytes) (B C : List Bytes),
    groupedKeys (A ++ k :: B ++ k :: C) = true → ∀ x ∈ B, x = k := by
  intro A
  induction A with
  | nil =>
    intro k B C h x hx
    exact groupedKeys_head_sandwich k B C (by simpa using h) x hx
  | cons a A' ih =>
    intro k B C h x hx
    have h2 : groupedKeys (A' ++ k :: B ++ k :: C) = true :=
      groupedKeys_tail a _ (by simpa using h)
    exact ih k B C h2 x hx

/-! ## CleanLockTombstone (BackgroundRunner::run, lock cf scan) -/

/-- Internal value types of skiplist keys. -/
inductive VType where
  | value
  | deletion
deriving DecidableEq, Repr

/-- One lock-column internal entry: decoded user key, sequence number and
value type. -/
structure LockEntry where
  userKey : Bytes
  seq : Nat
  vtype : VType
deriving DecidableEq, Repr

/-- The loop state of the lock-cf cleanup scan: the user key last seen, the
remove-the-rest flag, and the tombstone cached for deferred removal.  As in
the code, last_user_key starts as the empty vector. -/
structure CleanSt where
  lastUserKey : Bytes
  removeRest : Bool
  cachedToRemove : Option LockEntry
deriving DecidableEq, Repr

def cleanInit : CleanSt :=
  { lastUserKey := [], removeRest := false, cachedToRemove := none }

/-- One iteration of the lock-cf cleanup loop.  The two asserts of the loop
body are fatal.  Returns the new state and the entries removed now. -/
def cleanStep (seqno : Nat) (st : CleanSt) (e : LockEntry) :
    Except String (CleanSt × List LockEntry) :=
  if e.userKey ≠ st.lastUserKey then
    let rem0 := st.cachedToRemove.toList
    if seqno ≤ e.seq then
      .ok ({ lastUserKey := e.userKey, removeRest := false, cachedToRemove := none }, rem0)
    else
      .ok ({ lastUserKey := e.userKey, removeRest := true,
             cachedToRemove := if e.vtype = VType.deletion then some e else none }, rem0)
  else if st.removeRest then
    if e.seq < seqno then .ok (st, [e])
    else .error "clean lock: sequence not below snapshot seqno"
  else if e.seq < seqno then
    if e.vtype = VType.deletion then
      if st.cachedToRemove.isSome then
        .error "clean lock: cached tombstone already present"
      else
        .ok ({ st with removeRest := true, cachedToRemove := some e }, [])
    else
      .ok ({ st with removeRest := true }, [])
  else
    .ok (st, [])

/-- The iteration of the cleanup loop over the whole column (without the final
flush of the cached tombstone). -/
def cleanSteps (seqno : Nat) : List LockEntry → CleanSt →
    Except String (CleanSt × List LockEntry)
  | [], st => .ok (st, [])
  | e :: rest, st =>
    match cleanStep seqno st e with
    | .error er => .error er
    | .ok (st1, rem) =>
      match cleanSteps seqno rest st1 with
      | .error er => .error er
      | .ok (st2, rems) => .ok (st2, rem ++ rems)

/-- The whole scan: iterate, then remove the cached tombstone left at the
end.  Returns the removed entries. -/
def cleanScan (seqno : Nat) (entries : List LockEntry) : Except String (List LockEntry) :=
  match cleanSteps seqno entries cleanInit with
  | .error er => .error er
  | .ok (st, rems) => .ok (rems ++ st.cachedToRemove.toList)

/-- The BackgroundTask::CleanLockTombstone dispatch: a task whose seqno is
below the last seen one is dropped before the scan; otherwise last_seqno is
updated and the scan runs, leaving the lock column without the removed
entries.  Returns the new last_seqno and the surviving column. -/
def cleanLockTask (lastSeqno seqno : Nat) (entries : List LockEntry) :
    Except String (Nat × List LockEntry) :=
  if seqno < lastSeqno then .ok (lastSeqno, entries)
  else
    match cleanScan seqno entries with
    | .error er => .error er
    | .ok rems => .ok (seqno, entries.filter (fun e => !(rems.contains e)))

theorem cleanSteps_append (seqno : Nat) (l1 l2 : List LockEntry) :
    ∀ (st : CleanSt) (st2 : CleanSt) (rems : List LockEntry),
    cleanSteps seqno (l1 ++ l2) st = .ok (st2, rems) →
    ∃ stm r1 r2, cleanSteps seqno l1 st = .ok (stm, r1) ∧
      cleanSteps seqno l2 stm = .ok (st2, r2) ∧ rems = r1 ++ r2 := by
  induction l1 with
  | nil =>
    intro st st2 rems h
    exact ⟨st, [], rems, rfl, by simpa using h, rfl⟩
  | cons e l1' ih =>
    intro st st2 rems h
    rw [List.cons_append] at h
    rw [cleanSteps] at h
    cases hs : cleanStep seqno st e with
    | error er => rw [hs] at h; exact absurd h (by simp)
    | ok pr =>
      obtain ⟨st1, rem⟩ := pr
      rw [hs] at h
      simp only at h
      cases hrest : cleanSteps seqno (l1' ++ l2) st1 with
      | error er => rw [hrest] at h; exact absurd h (by simp)
      | ok pr2 =>
        obtain ⟨stq, remq⟩ := pr2
        rw [hrest] at h
        simp only at h
        injection h with h
        simp only [Prod.mk.injEq] at h
        obtain ⟨h1, h2⟩ := h
        subst h1
        subst h2
        obtain ⟨stm, r1, r2, ha, hb, hc⟩ := ih st1 stq remq hrest
        refine ⟨stm, rem ++ r1, r2, ?_, hb, by rw [hc, List.append_assoc]⟩
        rw [cleanSteps, hs]
        simp only
        rw [ha]

theorem cleanStep_cached_stays (seqno : Nat) (st : CleanSt) (e : LockEntry)
    (c : LockEntry) (hc : st.cachedToRemove = some c)
    {st1 : CleanSt} {rem : List LockEntry}
    (h : cleanStep seqno st e = .ok (st1, rem)) :
    c ∈ rem ∨ st1.cachedToRemove = some c := by
  unfold cleanStep at h
  by_cases h1 : e.userKey ≠ st.lastUserKey
  · rw [if_pos h1] at h
    by_cases h2 : seqno ≤ e.seq
    · rw [if_pos h2] at h
      injection h with h
      simp only [Prod.mk.injEq] at h
      obtain ⟨ha, hb⟩ := h
      subst ha; subst hb
      left
      rw [hc]
      simp
    · rw [if_neg h2] at h
      injection h with h
      simp only [Prod.mk.injEq] at h
      obtain ⟨ha, hb⟩ := h
      subst ha; subst hb
      left
      rw [hc]
      simp
  · rw [if_neg h1] at h
    by_cases h3 : st.removeRest = true
    · rw [if_pos h3] at h
      by_cases h4 : e.seq < seqno
      · rw [if_pos h4] at h
        injection h with h
        simp only [Prod.mk.injEq] at h
        obtain ⟨ha, hb⟩ := h
        subst ha; subst hb
        right
        exact hc
      · rw [if_neg h4] at h
        exact absurd h (by simp)
    · rw [if_neg h3] at h
      by_cases h4 : e.seq < seqno
      · rw [if_pos h4] at h
        by_cases h5 : e.vtype = VType.deletion
        · rw [if_pos h5] at h
          by_cases h6 : st.cachedToRemove.isSome = true
          · rw [if_pos h6] at h
            exact absurd h (by simp)
          · exfalso
            rw [hc] at h6
            simp at h6
        · rw [if_neg h5] at h
          injection h with h
          simp only [Prod.mk.injEq] at h
          obtain ⟨ha, hb⟩ := h
          subst ha; subst hb
          right
          exact hc
      · rw [if_neg h4] at h
        injection h with h
        simp only [Prod.mk.injEq] at h
        obtain ⟨ha, hb⟩ := h
        subst ha; subst hb
        right
        exact hc

theorem cleanSteps_cached_removed (seqno : Nat) :
    ∀ (l : List LockEntry) (st : CleanSt) (c : LockEntry),
    st.cachedToRemove = some c →
    ∀ {st2 : CleanSt} {rems : List LockEntry},
    cleanSteps seqno l st = .ok (st2, rems) →
    c ∈ rems ∨ st2.cachedToRemove = some c := by
  intro l
  induction l with
  | nil =>
    intro st c hc st2 rems h
    rw [cleanSteps] at h
    injection h with h
    simp only [Prod.mk.injEq] at h
    obtain ⟨h1, h2⟩ := h
    subst h1
    subst h2
    right
    exact hc
  | cons e rest ih =>
    intro st c hc st2 rems h
    rw [cleanSteps] at h
    cases hs : cleanStep seqno st e with
    | error er => rw [hs] at h; exact absurd h (by simp)
    | ok pr =>
      obtain ⟨st1, rem⟩ := pr
      rw [hs] at h
      simp only at h
      cases hrest : cleanSteps seqno rest st1 with
      | error er => rw [hrest] at h; exact absurd h (by simp)
      | ok pr2 =>
        obtain ⟨stq, remq⟩ := pr2
        rw [hrest] at h
        simp only at h
        injection h with h
        simp only [Prod.mk.injEq] at h
        obtain ⟨h1, h2⟩ := h
        subst h1
        subst h2
        rcases cleanStep_cached_stays seqno st e c hc hs with hin | hkeep
        · left
          exact List.mem_append.mpr (Or.inl hin)
        · rcases ih st1 c hkeep hrest with hin | hkeep2
          · left
            exact List.mem_append.mpr (Or.inr hin)
          · right
            exact hkeep2

theorem cleanStep_cases (seqno : Nat) (st : CleanSt) (e : LockEntry)
    {st1 : CleanSt} {rem : List LockEntry}
    (h : cleanStep seqno st e = .ok (st1, rem)) :
    (e.userKey ≠ st.lastUserKey ∧ seqno ≤ e.seq ∧
      st1 = ⟨e.userKey, false, none⟩ ∧ rem = st.cachedToRemove.toList) ∨
    (e.userKey ≠ st.lastUserKey ∧ e.seq < seqno ∧
      st1 = ⟨e.userKey, true, if e.vtype = VType.deletion then some e else none⟩ ∧
      rem = st.cachedToRemove.toList) ∨
    (e.userKey = st.lastUserKey ∧ st.removeRest = true ∧ e.seq < seqno ∧
      st1 = st ∧ rem = [e]) ∨
    (e.userKey = st.lastUserKey ∧ st.removeRest = false ∧ e.seq < seqno ∧
      e.vtype = VType.deletion ∧ st.cachedToRemove = none ∧
      st1 = { st with removeRest := true, cachedToRemove := some e } ∧ rem = []) ∨
    (e.userKey = st.lastUserKey ∧ st.removeRest = false ∧ e.seq < seqno ∧
      e.vtype ≠ VType.deletion ∧ st1 = { st with removeRest := true } ∧ rem = []) ∨
    (e.userKey = st.lastUserKey ∧ st.removeRest = false ∧ seqno ≤ e.seq ∧
      st1 = st ∧ rem = []) := by
  unfold cleanStep at h
  by_cases h1 : e.userKey ≠ st.lastUserKey
  · rw [if_pos h1] at h
    by_cases h2 : seqno ≤ e.seq
    · rw [if_pos h2] at h
      injection h with h
      simp only [Prod.mk.injEq] at h
      exact Or.inl ⟨h1, h2, h.1.symm, h.2.symm⟩
    · rw [if_neg h2] at h
      injection h with h
      simp only [Prod.mk.injEq] at h
      exact Or.inr (Or.inl ⟨h1, by omega, h.1.symm, h.2.symm⟩)
  · have h1' : e.userKey = st.lastUserKey := by
      by_contra hne
      exact h1 hne
    rw [if_neg h1] at h
    by_cases h3 : st.removeRest = true
    · rw [if_pos h3] at h
      by_cases h4 : e.seq < seqno
      · rw [if_pos h4] at h
        injection h with h
        simp only [Prod.mk.injEq] at h
        exact Or.inr (Or.inr (Or.inl ⟨h1', h3, h4, h.1.symm, h.2.symm⟩))
      · rw [if_neg h4] at h
        exact absurd h (by simp)
    · have h3' : st.removeRest = false := by simpa using h3
      rw [if_neg h3] at h
      by_cases h4 : e.seq < seqno
      · rw [if_pos h4] at h
        by_cases h5 : e.vtype = VType.deletion
        · rw [if_pos h5] at h
          by_cases h6 : st.cachedToRemove.isSome = true
          · rw [if_pos h6] at h
            exact absurd h (by simp)
          · rw [if_neg h6] at h
            injection h with h
            simp only [Prod.mk.injEq] at h
            refine Or.inr (Or.inr (Or.inr (Or.inl
              ⟨h1', h3', h4, h5, ?_, h.1.symm, h.2.symm⟩)))
            cases hcc : st.cachedToRemove with
            | none => rfl
            | some c => rw [hcc] at h6; simp at h6
        · rw [if_neg h5] at h
          injection h with h
          simp only [Prod.mk.injEq] at h
          exact Or.inr (Or.inr (Or.inr (Or.inr (Or.inl
            ⟨h1', h3', h4, h5, h.1.symm, h.2.symm⟩))))
      · rw [if_neg h4] at h
        injection h with h
        simp only [Prod.mk.injEq] at h
        exact Or.inr (Or.inr (Or.inr (Or.inr (Or.inr
          ⟨h1', h3', by omega, h.1.symm, h.2.symm⟩))))

theorem cleanStep_ok_of (seqno : Nat) (st : CleanSt) (e : LockEntry)
    (hinv1 : e.userKey = st.lastUserKey → st.removeRest = true → e.seq < seqno)
    (hinv2 : st.cachedToRemove.isSome = true → st.removeRest = true) :
    ∃ st1 rem, cleanStep seqno st e = .ok (st1, rem) := by
  unfold cleanStep
  by_cases h1 : e.userKey ≠ st.lastUserKey
  · rw [if_pos h1]
    by_cases h2 : seqno ≤ e.seq
    · rw [if_pos h2]; exact ⟨_, _, rfl⟩
    · rw [if_neg h2]; exact ⟨_, _, rfl⟩
  · have h1' : e.userKey = st.lastUserKey := by
      by_contra hne
      exact h1 hne
    rw [if_neg h1]
    by_cases h3 : st.removeRest = true
    · rw [if_pos h3]
      rw [if_pos (hinv1 h1' h3)]
      exact ⟨_, _, rfl⟩
    · rw [if_neg h3]
      by_cases h4 : e.seq < seqno
      · rw [if_pos h4]
        by_cases h5 : e.vtype = VType.deletion
        · rw [if_pos h5]
          have h6 : st.cachedToRemove.isSome = false := by
            by_contra hx
            have hx2 : st.cachedToRemove.isSome = true := by
              cases hq : st.cachedToRemove.isSome
              · exact absurd hq hx
              · rfl
            exact h3 (hinv2 hx2)
          rw [if_neg (by simp [h6])]
          exact ⟨_, _, rfl⟩
        · rw [if_neg h5]
          exact ⟨_, _, rfl⟩
      · rw [if_neg h4]
        exact ⟨_, _, rfl⟩

theorem cleanSteps_removed_below (seqno : Nat) :
    ∀ (l : List LockEntry) (st : CleanSt),
    (∀ c, st.cachedToRemove = some c → c.seq < seqno) →
    ∀ {st2 : CleanSt} {rems : List LockEntry},
    cleanSteps seqno l st = .ok (st2, rems) →
    (∀ e ∈ rems, e.seq < seqno) ∧
    (∀ c, st2.cachedToRemove = some c → c.seq < seqno) := by
  intro l
  induction l with
  | nil =>
    intro st hc st2 rems h
    rw [cleanSteps] at h
    injection h with h
    simp only [Prod.mk.injEq] at h
    obtain ⟨h1, h2⟩ := h
    subst h1
    subst h2
    exact ⟨by simp, hc⟩
  | cons e rest ih =>
    intro st hc st2 rems h
    rw [cleanSteps] at h
    cases hs : cleanStep seqno st e with
    | error er => rw [hs] at h; exact absurd h (by simp)
    | ok pr =>
      obtain ⟨st1, rem⟩ := pr
      rw [hs] at h
      simp only at h
      cases hrest : cleanSteps seqno rest st1 with
      | error er => rw [hrest] at h; exact absurd h (by simp)
      | ok pr2 =>
        obtain ⟨stq, remq⟩ := pr2
        rw [hrest] at h
        simp only at h
        injection h with h
        simp only [Prod.mk.injEq] at h
        obtain ⟨h1, h2⟩ := h
        subst h1
        subst h2
        have hstep : (∀ x ∈ rem, x.seq < seqno) ∧
            (∀ c, st1.cachedToRemove = some c → c.seq < seqno) := by
          rcases cleanStep_cases seqno st e hs with
            ⟨_, _, hst, hrm⟩ | ⟨_, hsq, hst, hrm⟩ | ⟨_, _, hsq, hst, hrm⟩ |
            ⟨_, _, hsq, _, _, hst, hrm⟩ | ⟨_, _, hsq, _, hst, hrm⟩ | ⟨_, _, _, hst, hrm⟩
          · subst hst; subst hrm
            refine ⟨?_, by simp⟩
            intro x hx
            cases hcc : st.cachedToRemove with
            | none => rw [hcc] at hx; simp at hx
            | some c =>
              rw [hcc] at hx
              simp only [Option.toList] at hx
              rw [List.mem_singleton] at hx
              subst hx
              exact hc x hcc
          · subst hst; subst hrm
            constructor
            · intro x hx
              cases hcc : st.cachedToRemove with
              | none => rw [hcc] at hx; simp at hx
              | some c =>
                rw [hcc] at hx
                simp only [Option.toList] at hx
                rw [List.mem_singleton] at hx
                subst hx
                exact hc x hcc
            · intro c hcx
              simp only at hcx
              split_ifs at hcx
              injection hcx with hcx
              subst hcx
              exact hsq
          · subst hst; subst hrm
            refine ⟨?_, hc⟩
            intro x hx
            rw [List.mem_singleton] at hx
            subst hx
            exact hsq
          · subst hst; subst hrm
            refine ⟨by simp, ?_⟩
            intro c hcx
            simp only at hcx
            injection hcx with hcx
            subst hcx
            exact hsq
          · subst hst; subst hrm
            exact ⟨by simp, hc⟩
          · subst hst; subst hrm
            exact ⟨by simp, hc⟩
        obtain ⟨hr2, hc2⟩ := ih st1 hstep.2 hrest
        refine ⟨?_, hc2⟩
        intro x hx
        rcases List.mem_append.mp hx with hx | hx
        · exact hstep.1 x hx
        · exact hr2 x hx

theorem cleanSteps_deletion_below_removed (seqno : Nat) :
    ∀ (l : List LockEntry) (st : CleanSt),
    ∀ {st2 : CleanSt} {rems : List LockEntry},
    cleanSteps seqno l st = .ok (st2, rems) →
    ∀ e ∈ l, e.vtype = VType.deletion → e.seq < seqno →
      e ∈ rems ∨ st2.cachedToRemove = some e := by
  intro l
  induction l with
  | nil => intro st st2 rems h e he; simp at he
  | cons x rest ih =>
    intro st st2 rems h e he hdel hbelow
    rw [cleanSteps] at h
    cases hs : cleanStep seqno st x with
    | error er => rw [hs] at h; exact absurd h (by simp)
    | ok pr =>
      obtain ⟨st1, rem⟩ := pr
      rw [hs] at h
      simp only at h
      cases hrest : cleanSteps seqno rest st1 with
      | error er => rw [hrest] at h; exact absurd h (by simp)
      | ok pr2 =>
        obtain ⟨stq, remq⟩ := pr2
        rw [hrest] at h
        simp only at h
        injection h with h
        simp only [Prod.mk.injEq] at h
        obtain ⟨h1, h2⟩ := h
        subst h1
        subst h2
        rcases List.mem_cons.mp he with rfl | hmem
        · rcases cleanStep_cases seqno st e hs with
            ⟨_, hge, hst, hrm⟩ | ⟨_, hsq, hst, hrm⟩ | ⟨_, _, hsq, hst, hrm⟩ |
            ⟨_, _, hsq, _, _, hst, hrm⟩ | ⟨_, _, hsq, hnd, hst, hrm⟩ | ⟨_, _, hge, hst, hrm⟩
          · omega
          · have hcached : st1.cachedToRemove = some e := by
              rw [hst]
              simp [hdel]
            rcases cleanSteps_cached_removed seqno rest st1 e hcached hrest with hin | hkp
            · left
              exact List.mem_append.mpr (Or.inr hin)
            · right
              exact hkp
          · subst hrm
            left
            exact List.mem_append.mpr (Or.inl (by simp))
          · have hcached : st1.cachedToRemove = some e := by
              rw [hst]
            rcases cleanSteps_cached_removed seqno rest st1 e hcached hrest with hin | hkp
            · left
              exact List.mem_append.mpr (Or.inr hin)
            · right
              exact hkp
          · exact absurd hdel hnd
          · omega
        · rcases ih st1 hrest e hmem hdel hbelow with hin | hkp
          · left
            exact List.mem_append.mpr (Or.inr hin)
          · right
            exact hkp

theorem cleanStep_kept_below (seqno : Nat) (st : CleanSt) (e : LockEntry)
    {st1 : CleanSt} {rem : List LockEntry}
    (h : cleanStep seqno st e = .ok (st1, rem))
    (hbelow : e.seq < seqno) (hkept : e ∉ rem) :
    st1.cachedToRemove = some e ∨
    (st1.removeRest = true ∧ st1.lastUserKey = e.userKey) := by
  rcases cleanStep_cases seqno st e h with
    ⟨_, hge, hst, hrm⟩ | ⟨_, hsq, hst, hrm⟩ | ⟨_, _, hsq, hst, hrm⟩ |
    ⟨_, _, hsq, _, _, hst, hrm⟩ | ⟨hk, _, hsq, hnd, hst, hrm⟩ | ⟨_, _, hge, hst, hrm⟩
  · omega
  · subst hst
    right
    exact ⟨rfl, rfl⟩
  · subst hrm
    exact absurd (by simp : e ∈ [e]) hkept
  · subst hst
    left
    rfl
  · subst hst
    right
    exact ⟨rfl, hk.symm⟩
  · omega

theorem cleanSteps_samekey_persist (seqno : Nat) :
    ∀ (l : List LockEntry) (st : CleanSt),
    st.removeRest = true →
    (∀ x ∈ l, x.userKey = st.lastUserKey) →
    ∀ {st2 : CleanSt} {rems : List LockEntry},
    cleanSteps seqno l st = .ok (st2, rems) →
    st2.removeRest = true ∧ st2.lastUserKey = st.lastUserKey := by
  intro l
  induction l with
  | nil =>
    intro st hrr _ st2 rems h
    rw [cleanSteps] at h
    injection h with h
    simp only [Prod.mk.injEq] at h
    obtain ⟨h1, _⟩ := h
    subst h1
    exact ⟨hrr, rfl⟩
  | cons x rest ih =>
    intro st hrr hkeys st2 rems h
    rw [cleanSteps] at h
    cases hs : cleanStep seqno st x with
    | error er => rw [hs] at h; exact absurd h (by simp)
    | ok pr =>
      obtain ⟨st1, rem⟩ := pr
      rw [hs] at h
      simp only at h
      cases hrest : cleanSteps seqno rest st1 with
      | error er => rw [hrest] at h; exact absurd h (by simp)
      | ok pr2 =>
        obtain ⟨stq, remq⟩ := pr2
        rw [hrest] at h
        simp only at h
        injection h with h
        simp only [Prod.mk.injEq] at h
        obtain ⟨h1, _⟩ := h
        subst h1
        have hxkey : x.userKey = st.lastUserKey := hkeys x (by simp)
        rcases cleanStep_cases seqno st x hs with
          ⟨hne, _, _, _⟩ | ⟨hne, _, _, _⟩ | ⟨_, _, _, hst, _⟩ |
          ⟨_, hrf, _, _, _, _, _⟩ | ⟨_, hrf, _, _, _, _⟩ | ⟨_, hrf, _, _, _⟩
        · exact absurd hxkey hne
        · exact absurd hxkey hne
        · subst hst
          exact ih _ hrr (fun y hy => hkeys y (by simp [hy])) hrest
        · rw [hrr] at hrf; exact absurd hrf (by simp)
        · rw [hrr] at hrf; exact absurd hrf (by simp)
        · rw [hrr] at hrf; exact absurd hrf (by simp)

theorem cleanStep_next_removed (seqno : Nat) (st : CleanSt) (e : LockEntry)
    {st1 : CleanSt} {rem : List LockEntry}
    (h : cleanStep seqno st e = .ok (st1, rem))
    (hkey : e.userKey = st.lastUserKey) (hrr : st.removeRest = true)
    (hbelow : e.seq < seqno) : e ∈ rem := by
  rcases cleanStep_cases seqno st e h with
    ⟨hne, _, _, _⟩ | ⟨hne, _, _, _⟩ | ⟨_, _, _, _, hrm⟩ |
    ⟨_, hrf, _, _, _, _, _⟩ | ⟨_, hrf, _, _, _, _⟩ | ⟨_, hrf, _, _, _⟩
  · exact absurd hkey hne
  · exact absurd hkey hne
  · subst hrm
    simp
  · rw [hrr] at hrf; exact absurd hrf (by simp)
  · rw [hrr] at hrf; exact absurd hrf (by simp)
  · rw [hrr] at hrf; exact absurd hrf (by simp)

theorem cleanSteps_ok_of_sorted (seqno : Nat) :
    ∀ (l : List LockEntry) (st : CleanSt),
    List.Pairwise (fun a b => a.userKey = b.userKey → b.seq < a.seq) l →
    (st.cachedToRemove.isSome = true → st.removeRest = true) →
    (st.removeRest = true → ∀ x ∈ l, x.userKey = st.lastUserKey → x.seq < seqno) →
    ∃ st2 rems, cleanSteps seqno l st = .ok (st2, rems) := by
  intro l
  induction l with
  | nil =>
    intro st _ _ _
    exact ⟨st, [], rfl⟩
  | cons e rest ih =>
    intro st hpw hinv1 hinv2
    rw [List.pairwise_cons] at hpw
    obtain ⟨hhead, hrestpw⟩ := hpw
    obtain ⟨st1, rem, hs⟩ := cleanStep_ok_of seqno st e
      (fun hk hr => hinv2 hr e (by simp) hk) hinv1
    have hnext : (st1.cachedToRemove.isSome = true → st1.removeRest = true) ∧
        (st1.removeRest = true →
          ∀ x ∈ rest, x.userKey = st1.lastUserKey → x.seq < seqno) := by
      rcases cleanStep_cases seqno st e hs with
        ⟨_, hge, hst, _⟩ | ⟨_, hsq, hst, _⟩ | ⟨hk, _, hsq, hst, _⟩ |
        ⟨hk, _, hsq, _, _, hst, _⟩ | ⟨hk, _, hsq, _, hst, _⟩ | ⟨hk, _, hge, hst, _⟩
      · subst hst
        exact ⟨by simp, by simp⟩
      · subst hst
        refine ⟨fun _ => rfl, ?_⟩
        intro _ x hx hxk
        have := hhead x hx hxk.symm
        omega
      · subst hst
        refine ⟨hinv1, ?_⟩
        intro hr x hx hxk
        exact hinv2 hr x (by simp [hx]) hxk
      · subst hst
        refine ⟨fun _ => rfl, ?_⟩
        intro _ x hx hxk
        have hxe : x.userKey = e.userKey := by rw [hxk, ← hk]
        have := hhead x hx hxe.symm
        omega
      · subst hst
        refine ⟨fun hx => ?_, ?_⟩
        · rfl
        · intro _ x hx hxk
          have hxe : x.userKey = e.userKey := by rw [hxk, ← hk]
          have := hhead x hx hxe.symm
          omega
      · subst hst
        refine ⟨hinv1, ?_⟩
        intro hr x hx hxk
        exact hinv2 hr x (by simp [hx]) hxk
    obtain ⟨st2, rems, hrest⟩ := ih st1 hrestpw hnext.1 hnext.2
    refine ⟨st2, rem ++ rems, ?_⟩
    rw [cleanSteps, hs]
    simp only
    rw [hrest]

theorem mem_mem_split {α : Type} [DecidableEq α] :
    ∀ (l : List α) (a b : α), a ∈ l → b ∈ l → a ≠ b →
    (∃ A B C, l = A ++ a :: B ++ b :: C) ∨ (∃ A B C, l = A ++ b :: B ++ a :: C) := by
  intro l
  induction l with
  | nil => intro a b ha; simp at ha
  | cons x l ih =>
    intro a b ha hb hne
    by_cases hxa : x = a
    · subst hxa
      have hbl : b ∈ l := by
        rcases List.mem_cons.mp hb with hh | hh
        · exact absurd hh.symm hne
        · exact hh
      obtain ⟨B, C, hBC⟩ := List.append_of_mem hbl
      exact Or.inl ⟨[], B, C, by rw [hBC]; rfl⟩
    · by_cases hxb : x = b
      · subst hxb
        have hal : a ∈ l := by
          rcases List.mem_cons.mp ha with hh | hh
          · exact absurd hh hne
          · exact hh
        obtain ⟨B, C, hBC⟩ := List.append_of_mem hal
        exact Or.inr ⟨[], B, C, by rw [hBC]; rfl⟩
      · have hal : a ∈ l := by
          rcases List.mem_cons.mp ha with hh | hh
          · exact absurd hh.symm hxa
          · exact hh
        have hbl : b ∈ l := by
          rcases List.mem_cons.mp hb with hh | hh
          · exact absurd hh.symm hxb
          · exact hh
        rcases ih a b hal hbl hne with ⟨A, B, C, hx⟩ | ⟨A, B, C, hx⟩
        · exact Or.inl ⟨x :: A, B, C, by rw [hx]; rfl⟩
        · exact Or.inr ⟨x :: A, B, C, by rw [hx]; rfl⟩

theorem clean_kept_below_unique_ordered (seqno : Nat) (A B C : List LockEntry)
    (e1 e2 : LockEntry) (hk : e2.userKey = e1.userKey)
    (hB : ∀ b ∈ B, b.userKey = e1.userKey)
    (h1 : e1.seq < seqno) (h2 : e2.seq < seqno)
    {rems : List LockEntry}
    (hscan : cleanScan seqno (A ++ e1 :: B ++ e2 :: C) = .ok rems)
    (hne1 : e1 ∉ rems) : e2 ∈ rems := by
  unfold cleanScan at hscan
  cases hq : cleanSteps seqno (A ++ e1 :: B ++ e2 :: C) cleanInit with
  | error er => rw [hq] at hscan; exact absurd hscan (by simp)
  | ok pr =>
    obtain ⟨stF, rsteps⟩ := pr
    rw [hq] at hscan
    simp only at hscan
    injection hscan with hscan
    subst hscan
    rw [List.append_assoc, List.cons_append] at hq
    obtain ⟨stA, rA, rRest, hA, hRest, hsum⟩ :=
      cleanSteps_append seqno A (e1 :: (B ++ e2 :: C)) cleanInit stF rsteps hq
    rw [cleanSteps] at hRest
    cases hs1 : cleanStep seqno stA e1 with
    | error er => rw [hs1] at hRest; exact absurd hRest (by simp)
    | ok pr1 =>
      obtain ⟨st1, r1⟩ := pr1
      rw [hs1] at hRest
      simp only at hRest
      cases hq2 : cleanSteps seqno (B ++ e2 :: C) st1 with
      | error er => rw [hq2] at hRest; exact absurd hRest (by simp)
      | ok pr2 =>
        obtain ⟨stG, rG⟩ := pr2
        rw [hq2] at hRest
        simp only at hRest
        injection hRest with hRest
        simp only [Prod.mk.injEq] at hRest
        obtain ⟨hg1, hg2⟩ := hRest
        subst hg1
        subst hg2
        have he1r1 : e1 ∉ r1 := by
          intro hx
          apply hne1
          rw [hsum]
          refine List.mem_append.mpr (Or.inl ?_)
          exact List.mem_append.mpr (Or.inr (List.mem_append.mpr (Or.inl hx)))
        rcases cleanStep_kept_below seqno stA e1 hs1 h1 he1r1 with hcached | ⟨hrr, hlk⟩
        · exfalso
          rcases cleanSteps_cached_removed seqno (B ++ e2 :: C) st1 e1 hcached hq2 with
            hin | hkp
          · apply hne1
            rw [hsum]
            exact List.mem_append.mpr (Or.inl (List.mem_append.mpr (Or.inr
              (List.mem_append.mpr (Or.inr hin)))))
          · apply hne1
            rw [hsum]
            refine List.mem_append.mpr (Or.inr ?_)
            rw [hkp]
            simp
        · obtain ⟨stB, rB, rE, hBsteps, hE, hsum2⟩ :=
            cleanSteps_append seqno B (e2 :: C) st1 stG rG hq2
          have hpersist := cleanSteps_samekey_persist seqno B st1 hrr
            (fun x hx => by rw [hB x hx, ← hlk]) hBsteps
          rw [cleanSteps] at hE
          cases hs2 : cleanStep seqno stB e2 with
          | error er => rw [hs2] at hE; exact absurd hE (by simp)
          | ok pr3 =>
            obtain ⟨st2, r2⟩ := pr3
            rw [hs2] at hE
            simp only at hE
            cases hq3 : cleanSteps seqno C st2 with
            | error er => rw [hq3] at hE; exact absurd hE (by simp)
            | ok pr4 =>
              obtain ⟨stH, rH⟩ := pr4
              rw [hq3] at hE
              simp only at hE
              injection hE with hE
              simp only [Prod.mk.injEq] at hE
              obtain ⟨hh1, hh2⟩ := hE
              subst hh1
              subst hh2
              have hkey2 : e2.userKey = stB.lastUserKey := by
                rw [hk, ← hlk, ← hpersist.2]
              have he2r2 : e2 ∈ r2 :=
                cleanStep_next_removed seqno stB e2 hs2 hkey2 hpersist.1 h2
              rw [hsum]
              refine List.mem_append.mpr (Or.inl ?_)
              refine List.mem_append.mpr (Or.inr ?_)
              refine List.mem_append.mpr (Or.inr ?_)
              rw [hsum2]
              refine List.mem_append.mpr (Or.inr ?_)
              exact List.mem_append.mpr (Or.inl he2r2)

/-- C7 counterexample: a CleanLockTombstone scan at seqno 5 over two
snapshot-protected versions of the same user key removes nothing, so two live
Value versions of user key [1] are retained after the scan, contradicting the
claim that at most one live version per user key is retained. -/
theorem clean_lock_retains_two_live_versions :
    cleanLockTask 0 5 [⟨[1], 10, VType.value⟩, ⟨[1], 8, VType.value⟩] =
      .ok (5, [⟨[1], 10, VType.value⟩, ⟨[1], 8, VType.value⟩]) ∧
    (([(⟨[1], 10, VType.value⟩ : LockEntry), ⟨[1], 8, VType.value⟩].filter
        (fun e => decide (e.userKey = [1]) && decide (e.vtype = VType.value))).length = 2) :=
  ⟨by rfl, by decide⟩

/-- C7 (amended): a CleanLockTombstone task whose seqno is below the last
seen seqno is a no-op; otherwise (on a lock column in skiplist order: user
keys grouped, sequences descending within a user key) the scan succeeds,
every removed entry has sequence strictly below seqno, and among the entries
with sequence below seqno at most one per user key is retained, and only when
it is a live Value, never a tombstone.  Entries at or above seqno are
retained unconditionally, so several versions of a user key may survive. -/
theorem clean_lock_task_spec (lastSeqno seqno : Nat) (entries : List LockEntry)
    (hgrp : groupedKeys (entries.map LockEntry.userKey) = true)
    (hsorted : List.Pairwise (fun a b => a.userKey = b.userKey → b.seq < a.seq) entries) :
    (seqno < lastSeqno → cleanLockTask lastSeqno seqno entries = .ok (lastSeqno, entries)) ∧
    (lastSeqno ≤ seqno → ∃ kept, cleanLockTask lastSeqno seqno entries = .ok (seqno, kept) ∧
      (∀ e ∈ entries, e ∉ kept → e.seq < seqno) ∧
      (∀ e ∈ kept, e ∈ entries) ∧
      (∀ e ∈ kept, e.seq < seqno → e.vtype = VType.value) ∧
      (∀ e1 ∈ kept, ∀ e2 ∈ kept, e1.userKey = e2.userKey →
        e1.seq < seqno → e2.seq < seqno → e1 = e2)) := by
  constructor
  · intro hlt
    unfold cleanLockTask
    rw [if_pos hlt]
  · intro hle
    obtain ⟨stF, rsteps, hsteps⟩ := cleanSteps_ok_of_sorted seqno entries cleanInit hsorted
      (by intro hx; simp [cleanInit] at hx) (by intro hx; simp [cleanInit] at hx)
    have hscan : cleanScan seqno entries = .ok (rsteps ++ stF.cachedToRemove.toList) := by
      unfold cleanScan
      rw [hsteps]
    set rems := rsteps ++ stF.cachedToRemove.toList with hrems
    set kept := entries.filter (fun e => !(rems.contains e)) with hkept
    have htask : cleanLockTask lastSeqno seqno entries = .ok (seqno, kept) := by
      unfold cleanLockTask
      rw [if_neg (by omega), hscan]
    have hremmem : ∀ e ∈ entries, e ∉ kept → e ∈ rems := by
      intro e he hk
      rw [hkept] at hk
      simp [List.mem_filter] at hk
      exact hk he
    have hkeptmem : ∀ e ∈ kept, e ∈ entries ∧ e ∉ rems := by
      intro e he
      rw [hkept] at he
      simp [List.mem_filter] at he
      exact he
    have hbelow := cleanSteps_removed_below seqno entries cleanInit
      (by intro c hc; simp [cleanInit] at hc) hsteps
    have hallbelow : ∀ e ∈ rems, e.seq < seqno := by
      intro e he
      rw [hrems] at he
      rcases List.mem_append.mp he with hin | hin
      · exact hbelow.1 e hin
      · cases hcc : stF.cachedToRemove with
        | none => rw [hcc] at hin; simp at hin
        | some c =>
          rw [hcc] at hin
          simp only [Option.toList] at hin
          rw [List.mem_singleton] at hin
          subst hin
          exact hbelow.2 e hcc
    refine ⟨kept, htask, ?_, ?_, ?_, ?_⟩
    · intro e he hk
      exact hallbelow e (hremmem e he hk)
    · intro e he
      exact (hkeptmem e he).1
    · intro e he hb
      obtain ⟨hent, hnin⟩ := hkeptmem e he
      cases hv : e.vtype with
      | value => rfl
      | deletion =>
        exfalso
        rcases cleanSteps_deletion_below_removed seqno entries cleanInit hsteps
            e hent hv hb with hin | hkp
        · exact hnin (by rw [hrems]; exact List.mem_append.mpr (Or.inl hin))
        · exact hnin (by rw [hrems, hkp]; simp)
    · intro e1 he1 e2 he2 hkk hb1 hb2
      by_contra hne
      obtain ⟨hent1, hnin1⟩ := hkeptmem e1 he1
      obtain ⟨hent2, hnin2⟩ := hkeptmem e2 he2
      rcases mem_mem_split entries e1 e2 hent1 hent2 hne with
        ⟨A, B, C, hsplit⟩ | ⟨A, B, C, hsplit⟩
      · have hB : ∀ b ∈ B, b.userKey = e1.userKey := by
          have hmap : entries.map LockEntry.userKey =
              A.map LockEntry.userKey ++ e1.userKey ::
                B.map LockEntry.userKey ++ e1.userKey :: C.map LockEntry.userKey := by
            rw [hsplit]
            simp [hkk]
          have := groupedKeys_sandwich (A.map LockEntry.userKey) e1.userKey
            (B.map LockEntry.userKey) (C.map LockEntry.userKey) (by rw [← hmap]; exact hgrp)
          intro b hb
          exact this b.userKey (List.mem_map_of_mem LockEntry.userKey hb)
        have := clean_kept_below_unique_ordered seqno A B C e1 e2 hkk.symm hB hb1 hb2
          (by rw [← hsplit]; exact hscan) hnin1
        exact hnin2 this
      · have hB : ∀ b ∈ B, b.userKey = e2.userKey := by
          have hmap : entries.map LockEntry.userKey =
              A.map LockEntry.userKey ++ e2.userKey ::
                B.map LockEntry.userKey ++ e2.userKey :: C.map LockEntry.userKey := by
            rw [hsplit]
            simp [hkk]
          have := groupedKeys_sandwich (A.map LockEntry.userKey) e2.userKey
            (B.map LockEntry.userKey) (C.map LockEntry.userKey) (by rw [← hmap]; exact hgrp)
          intro b hb
          exact this b.userKey (List.mem_map_of_mem LockEntry.userKey hb)
        have := clean_kept_below_unique_ordered seqno A B C e2 e1 hkk hB hb2 hb1
          (by rw [← hsplit]; exact hscan) hnin2
        exact hnin1 this

/-- Example fixture for the lock cleanup: a protected version, a stale
tombstone of the same user key and a live version of another key. -/
def exClw : List LockEntry :=
  [⟨[1], 10, VType.value⟩, ⟨[1], 3, VType.deletion⟩, ⟨[2], 4, VType.value⟩]

theorem clean_lock_task_spec_witness :
    groupedKeys (exClw.map LockEntry.userKey) = true ∧
    (0 ≤ 5 → ∃ kept, cleanLockTask 0 5 exClw = .ok (5, kept) ∧
      (∀ e ∈ exClw, e ∉ kept → e.seq < 5) ∧
      (∀ e ∈ kept, e ∈ exClw) ∧
      (∀ e ∈ kept, e.seq < 5 → e.vtype = VType.value) ∧
      (∀ e1 ∈ kept, ∀ e2 ∈ kept, e1.userKey = e2.userKey →
        e1.seq < 5 → e2.seq < 5 → e1 = e2)) :=
  ⟨by simp [groupedKeys, exClw],
   (clean_lock_task_spec 0 5 exClw (by simp [groupedKeys, exClw]) (by decide)).2⟩

/-! ## The MVCC GC Filter (Filter::filter_key and friends)

Write-column entries are modelled structurally: the internal key decodes into
the mvcc key prefix, the commit timestamp, the sequence number and the value
type; the value parses into the write record.  The memcomparable encoding is
injective and appends a fixed-width timestamp, so equality of encoded user
keys is equality of (prefix, commit-ts) pairs, and the empty initial
last_user_key vector of the Rust struct matches no real user key, which the
model renders as Option none. -/

/-- Write-record types (txn_types WriteType). -/
inductive WrType where
  | put
  | del
  | rollback
  | lockRec
deriving DecidableEq, Repr

/-- A parsed write-column value: type, start_ts, and whether a short value is
inlined. -/
structure WriteRec where
  wtype : WrType
  startTs : Nat
  short : Bool
deriving DecidableEq, Repr

/-- The identity of a write-column internal key (what skiplist removal is
keyed by). -/
structure IK where
  pfx : Bytes
  ts : Nat
  seq : Nat
  vtype : VType
deriving DecidableEq, Repr

/-- A write-column entry: internal key plus parsed value. -/
structure WEntry where
  pfx : Bytes
  ts : Nat
  seq : Nat
  vtype : VType
  wrec : WriteRec
deriving DecidableEq, Repr

def WEntry.key (e : WEntry) : IK := ⟨e.pfx, e.ts, e.seq, e.vtype⟩

/-- The decoded user key (mvcc prefix and commit ts). -/
def WEntry.userKey (e : WEntry) : Bytes × Nat := (e.pfx, e.ts)

def IK.userKey (k : IK) : Bytes × Nat := (k.pfx, k.ts)

/-- The mutable state of the Filter. -/
structure FState where
  mvccPfx : Bytes
  removeOlder : Bool
  cachedMvccDelete : Option IK
  cachedSkipDelete : Option IK
  lastUserKey : Option (Bytes × Nat)
deriving DecidableEq, Repr

/-- Filter::new. -/
def fInit : FState :=
  { mvccPfx := [], removeOlder := false, cachedMvccDelete := none,
    cachedSkipDelete := none, lastUserKey := none }

/-- The classification tail of Filter::filter_key: an entry reached with
remove_older set is removed (erasing the default-column payload of a
no-short-value Put); otherwise Rollback and Lock records are removed, a Put
arms remove_older, and an MVCC Delete arms remove_older and caches its key
for deferred removal.  `remAcc` carries keys flushed earlier in the call. -/
def filterClassify (st : FState) (e : WEntry) (remAcc : List IK) :
    FState × List IK × List (Bytes × Nat) :=
  if st.removeOlder then
    (st, remAcc ++ [e.key],
     if e.wrec.wtype = WrType.put ∧ e.wrec.short = false then [(st.mvccPfx, e.wrec.startTs)]
     else [])
  else
    match e.wrec.wtype with
    | WrType.rollback => (st, remAcc ++ [e.key], [])
    | WrType.lockRec => (st, remAcc ++ [e.key], [])
    | WrType.put => ({ st with removeOlder := true }, remAcc, [])
    | WrType.del =>
      ({ st with removeOlder := true, cachedMvccDelete := some e.key }, remAcc, [])

/-- The tail of Filter::filter_key after the skiplist-tombstone handling:
a duplicate user key is removed outright; a prefix change resets remove_older
and flushes the cached mvcc delete key; then the entry is classified.  `rem0`
carries a tombstone flushed by the caller. -/
def filterStepMain (st : FState) (e : WEntry) (rem0 : List IK) :
    FState × List IK × List (Bytes × Nat) :=
  if st.lastUserKey = some e.userKey then
    (st, rem0 ++ [e.key], [])
  else if st.mvccPfx ≠ e.pfx then
    filterClassify
      { mvccPfx := e.pfx, removeOlder := false, cachedMvccDelete := none,
        cachedSkipDelete := st.cachedSkipDelete, lastUserKey := some e.userKey } e
      (rem0 ++ st.cachedMvccDelete.toList)
  else
    filterClassify { st with lastUserKey := some e.userKey } e rem0

/-- Filter::filter_key.  Entries above oldest_seqno or above the safe point
are skipped untouched; a skiplist tombstone replaces (and removes) the cached
tombstone; a non-tombstone shadowed by the cached tombstone of the same user
key is removed; a cached tombstone of another user key is flushed before the
main classification. -/
def filterStep (safePoint oldestSeqno : Nat) (st : FState) (e : WEntry) :
    FState × List IK × List (Bytes × Nat) :=
  if oldestSeqno < e.seq then (st, [], [])
  else if safePoint < e.ts then (st, [], [])
  else if e.vtype = VType.deletion then
    ({ st with cachedSkipDelete := some e.key }, st.cachedSkipDelete.toList, [])
  else
    match st.cachedSkipDelete with
    | some k =>
      if k.userKey = e.userKey then
        (st, [e.key], [])
      else
        filterStepMain { st with cachedSkipDelete := none } e [k]
    | none => filterStepMain st e []

/-- Whether filter_key returns before any classification (the two guards). -/
def fSkipped (safePoint oldestSeqno : Nat) (e : WEntry) : Bool :=
  decide (oldestSeqno < e.seq) || decide (safePoint < e.ts)

/-- Filter::filter_keys_in_range over a list of in-range entries. -/
def filterRunAux (safePoint oldestSeqno : Nat) :
    List WEntry → FState → FState × List IK × List (Bytes × Nat)
  | [], st => (st, [], [])
  | e :: rest, st =>
    let p1 := filterStep safePoint oldestSeqno st e
    let p2 := filterRunAux safePoint oldestSeqno rest p1.1
    (p2.1, p1.2.1 ++ p2.2.1, p1.2.2 ++ p2.2.2)

/-- The Drop impl of Filter: flush the cached mvcc delete key, then the
cached skiplist delete key. -/
def filterDropFlush (st : FState) : List IK :=
  st.cachedMvccDelete.toList ++ st.cachedSkipDelete.toList

/-- A whole Filter pass over a range (construction, filter_keys_in_range,
drop): the write-column keys removed and the default-column user keys
erased. -/
def filterRun (safePoint oldestSeqno : Nat) (entries : List WEntry) :
    List IK × List (Bytes × Nat) :=
  let p := filterRunAux safePoint oldestSeqno entries fInit
  (p.2.1 ++ filterDropFlush p.1, p.2.2)

/-- The write column left after a Filter pass. -/
def filterSurvivors (safePoint oldestSeqno : Nat) (entries : List WEntry) :
    List WEntry :=
  entries.filter (fun e => !((filterRun safePoint oldestSeqno entries).1.contains e.key))

/-- A default-column entry: user key (prefix and start ts) plus sequence. -/
structure DEntry where
  pfx : Bytes
  ts : Nat
  seq : Nat
deriving DecidableEq, Repr

def DEntry.userKey (d : DEntry) : Bytes × Nat := (d.pfx, d.ts)

/-- Filter::handle_filtered_write removes every default-column entry whose
user key matches, whatever its sequence number: apply the collected
default-column removals to the default column. -/
def applyDefaultRemovals (removed : List (Bytes × Nat)) (col : List DEntry) :
    List DEntry :=
  col.filter (fun d => !(removed.contains d.userKey))

/-- The cached delete keys of the Filter always carry sequence numbers at or
below oldest_seqno. -/
def fCachedBelow (oldestSeqno : Nat) (st : FState) : Prop :=
  (∀ k, st.cachedMvccDelete = some k → k.seq ≤ oldestSeqno) ∧
  (∀ k, st.cachedSkipDelete = some k → k.seq ≤ oldestSeqno)


theorem filterClassify_cases (st : FState) (e : WEntry) (remAcc : List IK) :
    (st.removeOlder = true ∧
      filterClassify st e remAcc =
        (st, remAcc ++ [e.key],
         if e.wrec.wtype = WrType.put ∧ e.wrec.short = false then [(st.mvccPfx, e.wrec.startTs)]
         else [])) ∨
    (st.removeOlder = false ∧
      (e.wrec.wtype = WrType.rollback ∨ e.wrec.wtype = WrType.lockRec) ∧
      filterClassify st e remAcc = (st, remAcc ++ [e.key], [])) ∨
    (st.removeOlder = false ∧ e.wrec.wtype = WrType.put ∧
      filterClassify st e remAcc = ({ st with removeOlder := true }, remAcc, [])) ∨
    (st.removeOlder = false ∧ e.wrec.wtype = WrType.del ∧
      filterClassify st e remAcc =
        ({ st with removeOlder := true, cachedMvccDelete := some e.key }, remAcc, [])) := by
  by_cases hro : st.removeOlder = true
  · exact Or.inl ⟨hro, by unfold filterClassify; rw [if_pos hro]⟩
  · have hro' : st.removeOlder = false := by simpa using hro
    cases hw : e.wrec.wtype
    · exact Or.inr (Or.inr (Or.inl ⟨hro', rfl, by
        unfold filterClassify; rw [if_neg hro, hw]⟩))
    · exact Or.inr (Or.inr (Or.inr ⟨hro', rfl, by
        unfold filterClassify; rw [if_neg hro, hw]⟩))
    · exact Or.inr (Or.inl ⟨hro', Or.inl rfl, by
        unfold filterClassify; rw [if_neg hro, hw]⟩)
    · exact Or.inr (Or.inl ⟨hro', Or.inr rfl, by
        unfold filterClassify; rw [if_neg hro, hw]⟩)

theorem filterStepMain_cases (st : FState) (e : WEntry) (rem0 : List IK) :
    (st.lastUserKey = some e.userKey ∧
      filterStepMain st e rem0 = (st, rem0 ++ [e.key], [])) ∨
    (st.lastUserKey ≠ some e.userKey ∧ st.mvccPfx ≠ e.pfx ∧
      filterStepMain st e rem0 =
        filterClassify
          { mvccPfx := e.pfx, removeOlder := false, cachedMvccDelete := none,
            cachedSkipDelete := st.cachedSkipDelete, lastUserKey := some e.userKey } e
          (rem0 ++ st.cachedMvccDelete.toList)) ∨
    (st.lastUserKey ≠ some e.userKey ∧ st.mvccPfx = e.pfx ∧
      filterStepMain st e rem0 =
        filterClassify { st with lastUserKey := some e.userKey } e rem0) := by
  by_cases hdup : st.lastUserKey = some e.userKey
  · exact Or.inl ⟨hdup, by unfold filterStepMain; rw [if_pos hdup]⟩
  · by_cases hpfx : st.mvccPfx = e.pfx
    · refine Or.inr (Or.inr ⟨hdup, hpfx, ?_⟩)
      unfold filterStepMain
      rw [if_neg hdup, if_neg (by simpa using hpfx)]
    · refine Or.inr (Or.inl ⟨hdup, hpfx, ?_⟩)
      unfold filterStepMain
      rw [if_neg hdup, if_pos hpfx]

theorem filterStep_cases (safePoint oldestSeqno : Nat) (st : FState) (e : WEntry) :
    (fSkipped safePoint oldestSeqno e = true ∧
      filterStep safePoint oldestSeqno st e = (st, [], [])) ∨
    (fSkipped safePoint oldestSeqno e = false ∧ e.vtype = VType.deletion ∧
      filterStep safePoint oldestSeqno st e =
        ({ st with cachedSkipDelete := some e.key }, st.cachedSkipDelete.toList, [])) ∨
    (fSkipped safePoint oldestSeqno e = false ∧ e.vtype = VType.value ∧
      (∃ k, st.cachedSkipDelete = some k ∧ k.userKey = e.userKey ∧
        filterStep safePoint oldestSeqno st e = (st, [e.key], []))) ∨
    (fSkipped safePoint oldestSeqno e = false ∧ e.vtype = VType.value ∧
      (∃ k, st.cachedSkipDelete = some k ∧ k.userKey ≠ e.userKey ∧
        filterStep safePoint oldestSeqno st e =
          filterStepMain { st with cachedSkipDelete := none } e [k])) ∨
    (fSkipped safePoint oldestSeqno e = false ∧ e.vtype = VType.value ∧
      st.cachedSkipDelete = none ∧
      filterStep safePoint oldestSeqno st e = filterStepMain st e []) := by
  by_cases h1 : oldestSeqno < e.seq
  · refine Or.inl ⟨by simp [fSkipped, h1], ?_⟩
    unfold filterStep
    rw [if_pos h1]
  · by_cases h2 : safePoint < e.ts
    · refine Or.inl ⟨by simp [fSkipped, h1, h2], ?_⟩
      unfold filterStep
      rw [if_neg h1, if_pos h2]
    · have hsk : fSkipped safePoint oldestSeqno e = false := by
        simp [fSkipped, h1, h2]
      by_cases h3 : e.vtype = VType.deletion
      · refine Or.inr (Or.inl ⟨hsk, h3, ?_⟩)
        unfold filterStep
        rw [if_neg h1, if_neg h2, if_pos h3]
      · have h3' : e.vtype = VType.value := by
          cases hv : e.vtype
          · rfl
          · exact absurd hv h3
        cases hcc : st.cachedSkipDelete with
        | none =>
          refine Or.inr (Or.inr (Or.inr (Or.inr ⟨hsk, h3', rfl, ?_⟩)))
          unfold filterStep
          rw [if_neg h1, if_neg h2, if_neg h3, hcc]
        | some k =>
          by_cases hk : k.userKey = e.userKey
          · refine Or.inr (Or.inr (Or.inl ⟨hsk, h3', k, rfl, hk, ?_⟩))
            unfold filterStep
            rw [if_neg h1, if_neg h2, if_neg h3, hcc]
            simp only
            rw [if_pos hk]
          · refine Or.inr (Or.inr (Or.inr (Or.inl ⟨hsk, h3', k, rfl, hk, ?_⟩)))
            unfold filterStep
            rw [if_neg h1, if_neg h2, if_neg h3, hcc]
            simp only
            rw [if_neg hk]

/-- The cached mvcc delete key is only ever set together with remove_older. -/
def fInv (st : FState) : Prop :=
  st.cachedMvccDelete.isSome = true → st.removeOlder = true

theorem fSkipped_false {safePoint oldestSeqno : Nat} {e : WEntry}
    (h : fSkipped safePoint oldestSeqno e = false) :
    e.seq ≤ oldestSeqno ∧ e.ts ≤ safePoint := by
  unfold fSkipped at h
  simp only [Bool.or_eq_false_iff, decide_eq_false_iff_not, not_lt] at h
  exact h

theorem filterClassify_remAcc_sub (st : FState) (e : WEntry) (remAcc : List IK) :
    ∀ k ∈ remAcc, k ∈ (filterClassify st e remAcc).2.1 := by
  intro k hk
  rcases filterClassify_cases st e remAcc with ⟨_, hq⟩ | ⟨_, _, hq⟩ | ⟨_, _, hq⟩ | ⟨_, _, hq⟩ <;>
    rw [hq]
  · exact List.mem_append.mpr (Or.inl hk)
  · exact List.mem_append.mpr (Or.inl hk)
  · exact hk
  · exact hk

theorem filterStepMain_rem0_sub (st : FState) (e : WEntry) (rem0 : List IK) :
    ∀ k ∈ rem0, k ∈ (filterStepMain st e rem0).2.1 := by
  intro k hk
  rcases filterStepMain_cases st e rem0 with ⟨_, hq⟩ | ⟨_, _, hq⟩ | ⟨_, _, hq⟩ <;> rw [hq]
  · exact List.mem_append.mpr (Or.inl hk)
  · exact filterClassify_remAcc_sub _ _ _ k (List.mem_append.mpr (Or.inl hk))
  · exact filterClassify_remAcc_sub _ _ _ k hk

theorem filterClassify_inv (st : FState) (e : WEntry) (remAcc : List IK)
    (hi : fInv st) : fInv (filterClassify st e remAcc).1 := by
  rcases filterClassify_cases st e remAcc with ⟨_, hq⟩ | ⟨_, _, hq⟩ | ⟨_, _, hq⟩ | ⟨_, _, hq⟩ <;>
    rw [hq]
  · exact hi
  · exact hi
  · intro _; rfl
  · intro _; rfl

theorem filterStepMain_inv (st : FState) (e : WEntry) (rem0 : List IK)
    (hi : fInv st) : fInv (filterStepMain st e rem0).1 := by
  rcases filterStepMain_cases st e rem0 with ⟨_, hq⟩ | ⟨_, _, hq⟩ | ⟨_, _, hq⟩ <;> rw [hq]
  · exact hi
  · exact filterClassify_inv _ _ _ (by intro h; simp at h)
  · exact filterClassify_inv _ _ _ hi

theorem filterStep_inv (safePoint oldestSeqno : Nat) (st : FState) (e : WEntry)
    (hi : fInv st) : fInv (filterStep safePoint oldestSeqno st e).1 := by
  rcases filterStep_cases safePoint oldestSeqno st e with
    ⟨_, hq⟩ | ⟨_, _, hq⟩ | ⟨_, _, k, _, _, hq⟩ | ⟨_, _, k, _, _, hq⟩ | ⟨_, _, _, hq⟩ <;> rw [hq]
  · exact hi
  · exact hi
  · exact hi
  · exact filterStepMain_inv _ _ _ hi
  · exact filterStepMain_inv _ _ _ hi

theorem filterClassify_removed_le (oldestSeqno : Nat) (st : FState) (e : WEntry)
    (remAcc : List IK) (hc : fCachedBelow oldestSeqno st)
    (hr : ∀ k ∈ remAcc, k.seq ≤ oldestSeqno) (he : e.seq ≤ oldestSeqno) :
    (∀ k ∈ (filterClassify st e remAcc).2.1, k.seq ≤ oldestSeqno) ∧
    fCachedBelow oldestSeqno (filterClassify st e remAcc).1 := by
  rcases filterClassify_cases st e remAcc with ⟨_, hq⟩ | ⟨_, _, hq⟩ | ⟨_, _, hq⟩ | ⟨_, _, hq⟩ <;>
    rw [hq]
  · refine ⟨?_, hc⟩
    intro k hk
    rcases List.mem_append.mp hk with h | h
    · exact hr k h
    · rw [List.mem_singleton.mp h]; exact he
  · refine ⟨?_, hc⟩
    intro k hk
    rcases List.mem_append.mp hk with h | h
    · exact hr k h
    · rw [List.mem_singleton.mp h]; exact he
  · exact ⟨hr, hc.1, hc.2⟩
  · refine ⟨hr, ?_, hc.2⟩
    intro k hk
    injection hk with hk
    rw [← hk]
    exact he

theorem filterStepMain_removed_le (oldestSeqno : Nat) (st : FState) (e : WEntry)
    (rem0 : List IK) (hc : fCachedBelow oldestSeqno st)
    (hr : ∀ k ∈ rem0, k.seq ≤ oldestSeqno) (he : e.seq ≤ oldestSeqno) :
    (∀ k ∈ (filterStepMain st e rem0).2.1, k.seq ≤ oldestSeqno) ∧
    fCachedBelow oldestSeqno (filterStepMain st e rem0).1 := by
  rcases filterStepMain_cases st e rem0 with ⟨_, hq⟩ | ⟨_, _, hq⟩ | ⟨_, _, hq⟩ <;> rw [hq]
  · refine ⟨?_, hc⟩
    intro k hk
    rcases List.mem_append.mp hk with h | h
    · exact hr k h
    · rw [List.mem_singleton.mp h]; exact he
  · refine filterClassify_removed_le oldestSeqno _ e _ ⟨?_, hc.2⟩ ?_ he
    · intro k hk; exact absurd hk (by simp)
    · intro k hk
      rcases List.mem_append.mp hk with h | h
      · exact hr k h
      · cases hm : st.cachedMvccDelete with
        | none => rw [hm] at h; exact absurd h (by simp [Option.toList])
        | some k0 =>
          rw [hm] at h
          simp only [Option.toList] at h
          rw [List.mem_singleton.mp h]
          exact hc.1 k0 hm
  · exact filterClassify_removed_le oldestSeqno _ e _ ⟨hc.1, hc.2⟩ hr he

theorem filterStep_removed_le (safePoint oldestSeqno : Nat) (st : FState) (e : WEntry)
    (hc : fCachedBelow oldestSeqno st) :
    (∀ k ∈ (filterStep safePoint oldestSeqno st e).2.1, k.seq ≤ oldestSeqno) ∧
    fCachedBelow oldestSeqno (filterStep safePoint oldestSeqno st e).1 := by
  rcases filterStep_cases safePoint oldestSeqno st e with
    ⟨_, hq⟩ | ⟨hsk, _, hq⟩ | ⟨hsk, _, k, hck, _, hq⟩ | ⟨hsk, _, k, hck, _, hq⟩ |
    ⟨hsk, _, _, hq⟩ <;> rw [hq]
  · exact ⟨by intro k hk; exact absurd hk (by simp), hc⟩
  · refine ⟨?_, hc.1, ?_⟩
    · intro k hk
      cases hm : st.cachedSkipDelete with
      | none => rw [hm] at hk; exact absurd hk (by simp [Option.toList])
      | some k0 =>
        rw [hm] at hk
        simp only [Option.toList] at hk
        rw [List.mem_singleton.mp hk]
        exact hc.2 k0 hm
    · intro k hk
      injection hk with hk
      rw [← hk]
      exact (fSkipped_false hsk).1
  · refine ⟨?_, hc⟩
    intro k' hk'
    rw [List.mem_singleton.mp hk']
    exact (fSkipped_false hsk).1
  · refine filterStepMain_removed_le oldestSeqno _ e _ ⟨hc.1, ?_⟩ ?_ (fSkipped_false hsk).1
    · intro k' hk'; exact absurd hk' (by simp)
    · intro k' hk'
      rw [List.mem_singleton.mp hk']
      exact hc.2 k hck
  · exact filterStepMain_removed_le oldestSeqno st e [] hc (by intro k hk; exact absurd hk (by simp))
      (fSkipped_false hsk).1

theorem filterRunAux_removed_le (safePoint oldestSeqno : Nat) (entries : List WEntry)
    (st : FState) (hc : fCachedBelow oldestSeqno st) :
    (∀ k ∈ (filterRunAux safePoint oldestSeqno entries st).2.1, k.seq ≤ oldestSeqno) ∧
    fCachedBelow oldestSeqno (filterRunAux safePoint oldestSeqno entries st).1 := by
  induction entries generalizing st with
  | nil => exact ⟨by intro k hk; exact absurd hk (by simp [filterRunAux]), hc⟩
  | cons e rest ih =>
    have h1 := filterStep_removed_le safePoint oldestSeqno st e hc
    have h2 := ih (filterStep safePoint oldestSeqno st e).1 h1.2
    refine ⟨?_, h2.2⟩
    intro k hk
    simp only [filterRunAux] at hk
    rcases List.mem_append.mp hk with h | h
    · exact h1.1 k h
    · exact h2.1 k h

theorem filterRun_removed_le (safePoint oldestSeqno : Nat) (entries : List WEntry) :
    ∀ k ∈ (filterRun safePoint oldestSeqno entries).1, k.seq ≤ oldestSeqno := by
  have h := filterRunAux_removed_le safePoint oldestSeqno entries fInit
    ⟨by intro k hk; exact absurd hk (by simp [fInit]),
     by intro k hk; exact absurd hk (by simp [fInit])⟩
  intro k hk
  simp only [filterRun] at hk
  rcases List.mem_append.mp hk with h1 | h1
  · exact h.1 k h1
  · unfold filterDropFlush at h1
    rcases List.mem_append.mp h1 with h2 | h2
    · cases hm : (filterRunAux safePoint oldestSeqno entries fInit).1.cachedMvccDelete with
      | none => rw [hm] at h2; exact absurd h2 (by simp [Option.toList])
      | some k0 =>
        rw [hm] at h2
        simp only [Option.toList] at h2
        rw [List.mem_singleton.mp h2]
        exact h.2.1 k0 hm
    · cases hm : (filterRunAux safePoint oldestSeqno entries fInit).1.cachedSkipDelete with
      | none => rw [hm] at h2; exact absurd h2 (by simp [Option.toList])
      | some k0 =>
        rw [hm] at h2
        simp only [Option.toList] at h2
        rw [List.mem_singleton.mp h2]
        exact h.2.2 k0 hm

/-- C2 (amended): write-column entries with internal sequence above oldest_seqno
are protected: every write-column key a full Filter pass removes (drop-time
flushes included) carries a sequence at or below oldest_seqno, and filter_key
returns before any classification on an entry with seq above oldest_seqno,
leaving the state untouched and removing nothing.  (The original claim fails
for the default column: handle_filtered_write erases default-column entries by
user key alone, whatever their sequence — see the counterexample.) -/
theorem filter_write_removals_below_oldest_seqno (safePoint oldestSeqno : Nat)
    (entries : List WEntry) :
    (∀ k ∈ (filterRun safePoint oldestSeqno entries).1, k.seq ≤ oldestSeqno) ∧
    (∀ st : FState, ∀ e : WEntry, oldestSeqno < e.seq →
      filterStep safePoint oldestSeqno st e = (st, [], [])) := by
  refine ⟨filterRun_removed_le safePoint oldestSeqno entries, ?_⟩
  intro st e he
  unfold filterStep
  rw [if_pos he]

theorem filter_write_removals_below_oldest_seqno_witness :
    (∀ k ∈ (filterRun 10 5
      [⟨[1], 3, 5, VType.value, ⟨WrType.put, 2, false⟩⟩,
       ⟨[1], 2, 4, VType.value, ⟨WrType.put, 1, false⟩⟩]).1, k.seq ≤ 5) ∧
    5 < 7 ∧
    filterStep 10 5 fInit ⟨[1], 3, 7, VType.value, ⟨WrType.put, 2, false⟩⟩ =
      (fInit, [], []) :=
  ⟨(filter_write_removals_below_oldest_seqno 10 5
      [⟨[1], 3, 5, VType.value, ⟨WrType.put, 2, false⟩⟩,
       ⟨[1], 2, 4, VType.value, ⟨WrType.put, 1, false⟩⟩]).1,
   by decide,
   (filter_write_removals_below_oldest_seqno 10 5
      [⟨[1], 3, 5, VType.value, ⟨WrType.put, 2, false⟩⟩,
       ⟨[1], 2, 4, VType.value, ⟨WrType.put, 1, false⟩⟩]).2 fInit
      ⟨[1], 3, 7, VType.value, ⟨WrType.put, 2, false⟩⟩ (by decide)⟩

/-- C2 counterexample: the Filter does remove an entry with sequence above
oldest_seqno from the cache.  With safe point 10 and oldest_seqno 5, filtering
two Put versions of user key (prefix [1]) commits ts 3 and ts 2 removes the
older write-column version and, through handle_filtered_write, erases the
default-column entry of user key ([1], start ts 1) — even though that entry
sits at sequence 100 > 5, because the default column is matched by user key
alone. -/
theorem filter_removes_default_entry_above_oldest_seqno :
    5 < (100 : Nat) ∧
    applyDefaultRemovals
      (filterRun 10 5
        [⟨[1], 3, 5, VType.value, ⟨WrType.put, 2, false⟩⟩,
         ⟨[1], 2, 4, VType.value, ⟨WrType.put, 1, false⟩⟩]).2
      [⟨[1], 1, 100⟩] = [] := by
  constructor
  · decide
  · rfl

theorem filterRunAux_append (safePoint oldestSeqno : Nat) (A B : List WEntry) (st : FState) :
    filterRunAux safePoint oldestSeqno (A ++ B) st =
      ((filterRunAux safePoint oldestSeqno B (filterRunAux safePoint oldestSeqno A st).1).1,
       (filterRunAux safePoint oldestSeqno A st).2.1 ++
         (filterRunAux safePoint oldestSeqno B
           (filterRunAux safePoint oldestSeqno A st).1).2.1,
       (filterRunAux safePoint oldestSeqno A st).2.2 ++
         (filterRunAux safePoint oldestSeqno B
           (filterRunAux safePoint oldestSeqno A st).1).2.2) := by
  induction A generalizing st with
  | nil => simp [filterRunAux]
  | cons e A' ih =>
    simp only [List.cons_append, filterRunAux, ih]
    simp [List.append_assoc]
    exact ⟨congrArg (fun p => p.1) (ih _), congrArg (fun p => p.2.1) (ih _),
           congrArg (fun p => p.2.2) (ih _)⟩

theorem filterRunAux_inv (safePoint oldestSeqno : Nat) (l : List WEntry) (st : FState)
    (hi : fInv st) : fInv (filterRunAux safePoint oldestSeqno l st).1 := by
  induction l generalizing st with
  | nil => simpa [filterRunAux] using hi
  | cons e rest ih =>
    simp only [filterRunAux]
    exact ih _ (filterStep_inv safePoint oldestSeqno st e hi)

theorem filterStep_skip_chase (safePoint oldestSeqno : Nat) (st : FState) (e : WEntry)
    (k : IK) (hk : st.cachedSkipDelete = some k) :
    k ∈ (filterStep safePoint oldestSeqno st e).2.1 ∨
    (filterStep safePoint oldestSeqno st e).1.cachedSkipDelete = some k := by
  rcases filterStep_cases safePoint oldestSeqno st e with
    ⟨_, hq⟩ | ⟨_, _, hq⟩ | ⟨_, _, k0, hk0, _, hq⟩ | ⟨_, _, k0, hk0, _, hq⟩ |
    ⟨_, _, hnone, hq⟩ <;> rw [hq]
  · exact Or.inr hk
  · left; rw [hk]; simp [Option.toList]
  · exact Or.inr hk
  · left
    have hkk : k0 = k := by rw [hk] at hk0; injection hk0 with h; exact h.symm
    rw [hkk]
    exact filterStepMain_rem0_sub _ _ _ k (by simp)
  · rw [hnone] at hk; cases hk

theorem filterRunAux_skip_chase (safePoint oldestSeqno : Nat) (l : List WEntry)
    (st : FState) (k : IK) (hk : st.cachedSkipDelete = some k) :
    k ∈ (filterRunAux safePoint oldestSeqno l st).2.1 ∨
    (filterRunAux safePoint oldestSeqno l st).1.cachedSkipDelete = some k := by
  induction l generalizing st with
  | nil => exact Or.inr (by simpa [filterRunAux] using hk)
  | cons e rest ih =>
    simp only [filterRunAux]
    rcases filterStep_skip_chase safePoint oldestSeqno st e k hk with h | h
    · exact Or.inl (List.mem_append.mpr (Or.inl h))
    · rcases ih _ h with h2 | h2
      · exact Or.inl (List.mem_append.mpr (Or.inr h2))
      · exact Or.inr h2

theorem filterStepMain_mvcc_chase (st : FState) (e : WEntry) (rem0 : List IK) (k : IK)
    (hi : fInv st) (hk : st.cachedMvccDelete = some k) :
    k ∈ (filterStepMain st e rem0).2.1 ∨
    (filterStepMain st e rem0).1.cachedMvccDelete = some k := by
  rcases filterStepMain_cases st e rem0 with ⟨_, hq⟩ | ⟨_, _, hq⟩ | ⟨_, _, hq⟩ <;> rw [hq]
  · exact Or.inr hk
  · left
    refine filterClassify_remAcc_sub _ _ _ k ?_
    rw [hk]
    simp [Option.toList]
  · have hro : st.removeOlder = true := hi (by rw [hk]; rfl)
    rcases filterClassify_cases { st with lastUserKey := some e.userKey } e rem0 with
      ⟨_, hq2⟩ | ⟨hro2, _, hq2⟩ | ⟨hro2, _, hq2⟩ | ⟨hro2, _, hq2⟩
    · rw [hq2]; exact Or.inr hk
    · exfalso
      have h3 : st.removeOlder = false := hro2
      rw [hro] at h3
      cases h3
    · exfalso
      have h3 : st.removeOlder = false := hro2
      rw [hro] at h3
      cases h3
    · exfalso
      have h3 : st.removeOlder = false := hro2
      rw [hro] at h3
      cases h3

theorem filterStep_mvcc_chase (safePoint oldestSeqno : Nat) (st : FState) (e : WEntry)
    (k : IK) (hi : fInv st) (hk : st.cachedMvccDelete = some k) :
    k ∈ (filterStep safePoint oldestSeqno st e).2.1 ∨
    (filterStep safePoint oldestSeqno st e).1.cachedMvccDelete = some k := by
  rcases filterStep_cases safePoint oldestSeqno st e with
    ⟨_, hq⟩ | ⟨_, _, hq⟩ | ⟨_, _, k0, _, _, hq⟩ | ⟨_, _, k0, _, _, hq⟩ |
    ⟨_, _, _, hq⟩ <;> rw [hq]
  · exact Or.inr hk
  · exact Or.inr hk
  · exact Or.inr hk
  · exact filterStepMain_mvcc_chase _ e [k0] k (by intro h; exact hi h) hk
  · exact filterStepMain_mvcc_chase st e [] k hi hk

theorem filterRunAux_mvcc_chase (safePoint oldestSeqno : Nat) (l : List WEntry)
    (st : FState) (k : IK) (hi : fInv st) (hk : st.cachedMvccDelete = some k) :
    k ∈ (filterRunAux safePoint oldestSeqno l st).2.1 ∨
    (filterRunAux safePoint oldestSeqno l st).1.cachedMvccDelete = some k := by
  induction l generalizing st with
  | nil => exact Or.inr (by simpa [filterRunAux] using hk)
  | cons e rest ih =>
    simp only [filterRunAux]
    rcases filterStep_mvcc_chase safePoint oldestSeqno st e k hi hk with h | h
    · exact Or.inl (List.mem_append.mpr (Or.inl h))
    · rcases ih _ (filterStep_inv safePoint oldestSeqno st e hi) h with h2 | h2
      · exact Or.inl (List.mem_append.mpr (Or.inr h2))
      · exact Or.inr h2

theorem filterStepMain_kept (st : FState) (e : WEntry) (rem0 : List IK)
    (hi : fInv st) (hskip : st.cachedSkipDelete = none)
    (hkept : e.key ∉ (filterStepMain st e rem0).2.1) :
    (e.wrec.wtype = WrType.put ∧
       (filterStepMain st e rem0).1 =
         { mvccPfx := e.pfx, removeOlder := true, cachedMvccDelete := none,
           cachedSkipDelete := none, lastUserKey := some e.userKey }) ∨
    (e.wrec.wtype = WrType.del ∧
       (filterStepMain st e rem0).1.cachedMvccDelete = some e.key) := by
  rcases filterStepMain_cases st e rem0 with ⟨_, hq⟩ | ⟨_, hpfx, hq⟩ | ⟨_, hpfx, hq⟩
  · rw [hq] at hkept
    exact absurd (List.mem_append.mpr (Or.inr (by simp))) hkept
  · rw [hq] at hkept ⊢
    rcases filterClassify_cases
        { mvccPfx := e.pfx, removeOlder := false, cachedMvccDelete := none,
          cachedSkipDelete := st.cachedSkipDelete, lastUserKey := some e.userKey } e
        (rem0 ++ st.cachedMvccDelete.toList) with
      ⟨hro2, hq2⟩ | ⟨_, _, hq2⟩ | ⟨_, hw, hq2⟩ | ⟨_, hw, hq2⟩
    · exact Bool.noConfusion hro2
    · rw [hq2] at hkept
      exact absurd (List.mem_append.mpr (Or.inr (by simp))) hkept
    · left
      refine ⟨hw, ?_⟩
      rw [hq2, hskip]
    · right
      refine ⟨hw, ?_⟩
      rw [hq2]
  · rw [hq] at hkept ⊢
    rcases filterClassify_cases { st with lastUserKey := some e.userKey } e rem0 with
      ⟨_, hq2⟩ | ⟨_, _, hq2⟩ | ⟨hro2, hw, hq2⟩ | ⟨hro2, hw, hq2⟩
    · rw [hq2] at hkept
      exact absurd (List.mem_append.mpr (Or.inr (by simp))) hkept
    · rw [hq2] at hkept
      exact absurd (List.mem_append.mpr (Or.inr (by simp))) hkept
    · left
      refine ⟨hw, ?_⟩
      rw [hq2]
      have hro3 : st.removeOlder = false := hro2
      have hcm : st.cachedMvccDelete = none := by
        cases hm : st.cachedMvccDelete with
        | none => rfl
        | some k =>
          have h4 := hi (by rw [hm]; rfl)
          rw [hro3] at h4
          cases h4
      rw [hpfx, hcm, hskip]
    · right
      refine ⟨hw, ?_⟩
      rw [hq2]

theorem filterStep_kept (safePoint oldestSeqno : Nat) (st : FState) (e : WEntry)
    (hi : fInv st) (hsk : fSkipped safePoint oldestSeqno e = false)
    (hkept : e.key ∉ (filterStep safePoint oldestSeqno st e).2.1) :
    (e.vtype = VType.deletion ∧
       (filterStep safePoint oldestSeqno st e).1.cachedSkipDelete = some e.key) ∨
    (e.vtype = VType.value ∧ e.wrec.wtype = WrType.put ∧
       (filterStep safePoint oldestSeqno st e).1 =
         { mvccPfx := e.pfx, removeOlder := true, cachedMvccDelete := none,
           cachedSkipDelete := none, lastUserKey := some e.userKey }) ∨
    (e.vtype = VType.value ∧ e.wrec.wtype = WrType.del ∧
       (filterStep safePoint oldestSeqno st e).1.cachedMvccDelete = some e.key) := by
  rcases filterStep_cases safePoint oldestSeqno st e with
    ⟨hskA, hq⟩ | ⟨_, hdel, hq⟩ | ⟨_, _, k0, _, _, hq⟩ | ⟨_, hv, k0, hk0, _, hq⟩ |
    ⟨_, hv, hnone, hq⟩
  · rw [hsk] at hskA; cases hskA
  · left; exact ⟨hdel, by rw [hq]⟩
  · rw [hq] at hkept
    exact absurd (by simp) hkept
  · rw [hq] at hkept ⊢
    rcases filterStepMain_kept { st with cachedSkipDelete := none } e [k0]
        (by intro h; exact hi h) rfl hkept with ⟨hw, hres⟩ | ⟨hw, hres⟩
    · exact Or.inr (Or.inl ⟨hv, hw, hres⟩)
    · exact Or.inr (Or.inr ⟨hv, hw, hres⟩)
  · rw [hq] at hkept ⊢
    rcases filterStepMain_kept st e [] hi hnone hkept with ⟨hw, hres⟩ | ⟨hw, hres⟩
    · exact Or.inr (Or.inl ⟨hv, hw, hres⟩)
    · exact Or.inr (Or.inr ⟨hv, hw, hres⟩)

theorem filterStepMain_persist (st : FState) (e : WEntry) (rem0 : List IK)
    (hro : st.removeOlder = true) (hpfx : st.mvccPfx = e.pfx) :
    (filterStepMain st e rem0).1.removeOlder = true ∧
    (filterStepMain st e rem0).1.mvccPfx = st.mvccPfx ∧
    e.key ∈ (filterStepMain st e rem0).2.1 := by
  rcases filterStepMain_cases st e rem0 with ⟨_, hq⟩ | ⟨_, hpfx2, hq⟩ | ⟨_, _, hq⟩
  · rw [hq]
    exact ⟨hro, rfl, by simp⟩
  · exact absurd hpfx hpfx2
  · rw [hq]
    rcases filterClassify_cases { st with lastUserKey := some e.userKey } e rem0 with
      ⟨_, hq2⟩ | ⟨hro2, _, hq2⟩ | ⟨hro2, _, hq2⟩ | ⟨hro2, _, hq2⟩
    · rw [hq2]
      exact ⟨hro, rfl, by simp⟩
    · exfalso
      have h3 : st.removeOlder = false := hro2
      rw [hro] at h3
      cases h3
    · exfalso
      have h3 : st.removeOlder = false := hro2
      rw [hro] at h3
      cases h3
    · exfalso
      have h3 : st.removeOlder = false := hro2
      rw [hro] at h3
      cases h3

theorem filterStep_persist (safePoint oldestSeqno : Nat) (st : FState) (e : WEntry)
    (hro : st.removeOlder = true) (hpfx : st.mvccPfx = e.pfx) :
    (filterStep safePoint oldestSeqno st e).1.removeOlder = true ∧
    (filterStep safePoint oldestSeqno st e).1.mvccPfx = st.mvccPfx ∧
    (fSkipped safePoint oldestSeqno e = false →
      e.key ∈ (filterStep safePoint oldestSeqno st e).2.1 ∨
      (filterStep safePoint oldestSeqno st e).1.cachedSkipDelete = some e.key) := by
  rcases filterStep_cases safePoint oldestSeqno st e with
    ⟨hskA, hq⟩ | ⟨_, _, hq⟩ | ⟨_, _, k0, _, _, hq⟩ | ⟨_, _, k0, hk0, _, hq⟩ |
    ⟨_, _, hnone, hq⟩ <;> rw [hq]
  · exact ⟨hro, rfl, fun hf => by rw [hskA] at hf; cases hf⟩
  · exact ⟨hro, rfl, fun _ => Or.inr rfl⟩
  · exact ⟨hro, rfl, fun _ => Or.inl (by simp)⟩
  · have h := filterStepMain_persist { st with cachedSkipDelete := none } e [k0] hro hpfx
    exact ⟨h.1, h.2.1, fun _ => Or.inl h.2.2⟩
  · have h := filterStepMain_persist st e [] hro hpfx
    exact ⟨h.1, h.2.1, fun _ => Or.inl h.2.2⟩

theorem filterRunAux_persist (safePoint oldestSeqno : Nat) (l : List WEntry) (st : FState)
    (p : Bytes) (hro : st.removeOlder = true) (hpfx : st.mvccPfx = p)
    (hall : ∀ x ∈ l, x.pfx = p) :
    (filterRunAux safePoint oldestSeqno l st).1.removeOlder = true ∧
    (filterRunAux safePoint oldestSeqno l st).1.mvccPfx = p := by
  induction l generalizing st with
  | nil => exact ⟨by simpa [filterRunAux] using hro, by simpa [filterRunAux] using hpfx⟩
  | cons e rest ih =>
    simp only [filterRunAux]
    have hstep := filterStep_persist safePoint oldestSeqno st e hro
      (by rw [hpfx, hall e (by simp)])
    exact ih _ hstep.1 (by rw [hstep.2.1, hpfx]) (fun x hx => hall x (by simp [hx]))

theorem filterRunAux_final_mid (safePoint oldestSeqno : Nat) (A : List WEntry)
    (e : WEntry) (B : List WEntry) (st : FState) :
    (filterRunAux safePoint oldestSeqno (A ++ e :: B) st).1 =
      (filterRunAux safePoint oldestSeqno B
        (filterStep safePoint oldestSeqno (filterRunAux safePoint oldestSeqno A st).1 e).1).1 := by
  rw [filterRunAux_append]
  simp only [filterRunAux]

theorem mem_filterRunAux_of_mid (safePoint oldestSeqno : Nat) (A : List WEntry)
    (e : WEntry) (B : List WEntry) (st : FState) (k : IK)
    (h : k ∈ (filterStep safePoint oldestSeqno
                (filterRunAux safePoint oldestSeqno A st).1 e).2.1 ∨
         k ∈ (filterRunAux safePoint oldestSeqno B
               (filterStep safePoint oldestSeqno
                 (filterRunAux safePoint oldestSeqno A st).1 e).1).2.1) :
    k ∈ (filterRunAux safePoint oldestSeqno (A ++ e :: B) st).2.1 := by
  rw [filterRunAux_append]
  simp only [filterRunAux]
  rcases h with h | h
  · exact List.mem_append.mpr (Or.inr (List.mem_append.mpr (Or.inl h)))
  · exact List.mem_append.mpr (Or.inr (List.mem_append.mpr (Or.inr h)))

theorem mem_filterRun_of_aux (safePoint oldestSeqno : Nat) (l : List WEntry) (k : IK)
    (h : k ∈ (filterRunAux safePoint oldestSeqno l fInit).2.1 ∨
         k ∈ filterDropFlush (filterRunAux safePoint oldestSeqno l fInit).1) :
    k ∈ (filterRun safePoint oldestSeqno l).1 := by
  simp only [filterRun]
  exact List.mem_append.mpr h

theorem pair_sublist_split {α : Type} (a b : α) (l : List α) (h : List.Sublist [a, b] l) :
    ∃ A B C, l = A ++ a :: (B ++ b :: C) := by
  induction l with
  | nil => cases h
  | cons x xs ih =>
    cases h with
    | cons _ h' =>
      obtain ⟨A, B, C, hq⟩ := ih h'
      exact ⟨x :: A, B, C, by rw [hq]; rfl⟩
    | cons₂ _ h' =>
      obtain ⟨B, C, hq⟩ := List.append_of_mem (List.singleton_sublist.mp h')
      exact ⟨[], B, C, by rw [hq]; rfl⟩

theorem filter_kept_mid (safePoint oldestSeqno : Nat) (A : List WEntry) (e : WEntry)
    (B : List WEntry) (hsk : fSkipped safePoint oldestSeqno e = false)
    (hkept : e.key ∉ (filterRun safePoint oldestSeqno (A ++ e :: B)).1) :
    e.vtype = VType.value ∧ e.wrec.wtype = WrType.put ∧
    (filterStep safePoint oldestSeqno (filterRunAux safePoint oldestSeqno A fInit).1 e).1 =
      { mvccPfx := e.pfx, removeOlder := true, cachedMvccDelete := none,
        cachedSkipDelete := none, lastUserKey := some e.userKey } := by
  have hinvA : fInv (filterRunAux safePoint oldestSeqno A fInit).1 :=
    filterRunAux_inv _ _ A fInit (by intro h; simp [fInit] at h)
  have hkeptStep : e.key ∉ (filterStep safePoint oldestSeqno
      (filterRunAux safePoint oldestSeqno A fInit).1 e).2.1 := fun hmem =>
    hkept (mem_filterRun_of_aux _ _ _ _
      (Or.inl (mem_filterRunAux_of_mid _ _ A e B fInit _ (Or.inl hmem))))
  rcases filterStep_kept safePoint oldestSeqno _ e hinvA hsk hkeptStep with
    ⟨_, hcache⟩ | ⟨hv, hw, hres⟩ | ⟨_, _, hcache⟩
  · exfalso
    rcases filterRunAux_skip_chase safePoint oldestSeqno B _ e.key hcache with h | h
    · exact hkept (mem_filterRun_of_aux _ _ _ _
        (Or.inl (mem_filterRunAux_of_mid _ _ A e B fInit _ (Or.inr h))))
    · refine hkept (mem_filterRun_of_aux _ _ _ _ (Or.inr ?_))
      rw [filterRunAux_final_mid]
      unfold filterDropFlush
      exact List.mem_append.mpr (Or.inr (by rw [h]; simp [Option.toList]))
  · exact ⟨hv, hw, hres⟩
  · exfalso
    have hinv1 : fInv (filterStep safePoint oldestSeqno
        (filterRunAux safePoint oldestSeqno A fInit).1 e).1 :=
      filterStep_inv _ _ _ _ hinvA
    rcases filterRunAux_mvcc_chase safePoint oldestSeqno B _ e.key hinv1 hcache with h | h
    · exact hkept (mem_filterRun_of_aux _ _ _ _
        (Or.inl (mem_filterRunAux_of_mid _ _ A e B fInit _ (Or.inr h))))
    · refine hkept (mem_filterRun_of_aux _ _ _ _ (Or.inr ?_))
      rw [filterRunAux_final_mid]
      unfold filterDropFlush
      exact List.mem_append.mpr (Or.inl (by rw [h]; simp [Option.toList]))

theorem filter_kept_pair_pfx (safePoint oldestSeqno : Nat) (A : List WEntry)
    (e1 : WEntry) (B : List WEntry) (e2 : WEntry) (C : List WEntry)
    (hg : groupedKeys ((A ++ e1 :: (B ++ e2 :: C)).map WEntry.pfx) = true)
    (hsk1 : fSkipped safePoint oldestSeqno e1 = false)
    (hsk2 : fSkipped safePoint oldestSeqno e2 = false)
    (hkept1 : e1.key ∉ (filterRun safePoint oldestSeqno (A ++ e1 :: (B ++ e2 :: C))).1)
    (hkept2 : e2.key ∉ (filterRun safePoint oldestSeqno (A ++ e1 :: (B ++ e2 :: C))).1) :
    e1.pfx ≠ e2.pfx := by
  intro hpfx
  obtain ⟨_, _, hres⟩ :=
    filter_kept_mid safePoint oldestSeqno A e1 (B ++ e2 :: C) hsk1 hkept1
  have hmap : (A ++ e1 :: (B ++ e2 :: C)).map WEntry.pfx =
      A.map WEntry.pfx ++ e1.pfx :: B.map WEntry.pfx ++ e1.pfx :: C.map WEntry.pfx := by
    simp [← hpfx]
  have hB : ∀ x ∈ B, x.pfx = e1.pfx := by
    intro x hx
    exact groupedKeys_sandwich (A.map WEntry.pfx) e1.pfx (B.map WEntry.pfx)
      (C.map WEntry.pfx) (by rw [← hmap]; exact hg) x.pfx (List.mem_map.mpr ⟨x, hx, rfl⟩)
  have hper := filterRunAux_persist safePoint oldestSeqno B
    (filterStep safePoint oldestSeqno (filterRunAux safePoint oldestSeqno A fInit).1 e1).1
    e1.pfx (by rw [hres]) (by rw [hres]) hB
  have hstep2 := filterStep_persist safePoint oldestSeqno
    (filterRunAux safePoint oldestSeqno B
      (filterStep safePoint oldestSeqno
        (filterRunAux safePoint oldestSeqno A fInit).1 e1).1).1
    e2 hper.1 (hper.2.trans hpfx)
  rcases hstep2.2.2 hsk2 with h | h
  · exact hkept2 (mem_filterRun_of_aux _ _ _ _ (Or.inl
      (mem_filterRunAux_of_mid _ _ A e1 (B ++ e2 :: C) fInit _ (Or.inr
        (mem_filterRunAux_of_mid _ _ B e2 C _ _ (Or.inl h))))))
  · rcases filterRunAux_skip_chase safePoint oldestSeqno C _ e2.key h with h2 | h2
    · exact hkept2 (mem_filterRun_of_aux _ _ _ _ (Or.inl
        (mem_filterRunAux_of_mid _ _ A e1 (B ++ e2 :: C) fInit _ (Or.inr
          (mem_filterRunAux_of_mid _ _ B e2 C _ _ (Or.inr h2))))))
    · refine hkept2 (mem_filterRun_of_aux _ _ _ _ (Or.inr ?_))
      rw [filterRunAux_final_mid, filterRunAux_final_mid]
      unfold filterDropFlush
      refine List.mem_append.mpr (Or.inr ?_)
      rw [h2]
      simp [Option.toList]

theorem filterRunAux_clean (safePoint oldestSeqno : Nat) (S : List WEntry) (st : FState)
    (hmv : st.cachedMvccDelete = none) (hsdel : st.cachedSkipDelete = none)
    (hall : ∀ e ∈ S, fSkipped safePoint oldestSeqno e = false →
      e.vtype = VType.value ∧ e.wrec.wtype = WrType.put)
    (hfresh : ∀ e ∈ S, fSkipped safePoint oldestSeqno e = false →
      (st.removeOlder = true → st.mvccPfx ≠ e.pfx) ∧ st.lastUserKey ≠ some e.userKey)
    (hpw : List.Pairwise (fun a b => a.pfx ≠ b.pfx)
      (S.filter (fun e => !(fSkipped safePoint oldestSeqno e)))) :
    (filterRunAux safePoint oldestSeqno S st).2.1 = [] ∧
    (filterRunAux safePoint oldestSeqno S st).2.2 = [] ∧
    (filterRunAux safePoint oldestSeqno S st).1.cachedMvccDelete = none ∧
    (filterRunAux safePoint oldestSeqno S st).1.cachedSkipDelete = none := by
  induction S generalizing st with
  | nil =>
    exact ⟨rfl, rfl, by simpa [filterRunAux] using hmv, by simpa [filterRunAux] using hsdel⟩
  | cons e rest ih =>
    simp only [filterRunAux]
    by_cases hsk : fSkipped safePoint oldestSeqno e = true
    · have hstep : filterStep safePoint oldestSeqno st e = (st, [], []) := by
        rcases filterStep_cases safePoint oldestSeqno st e with
          ⟨_, hq⟩ | ⟨hf, _, _⟩ | ⟨hf, _, _⟩ | ⟨hf, _, _⟩ | ⟨hf, _, _, _⟩
        · exact hq
        all_goals (rw [hsk] at hf; cases hf)
      rw [hstep]
      rw [List.filter_cons_of_neg (by simp [hsk])] at hpw
      have hrec := ih st hmv hsdel (fun x hx => hall x (List.mem_cons_of_mem e hx))
        (fun x hx => hfresh x (List.mem_cons_of_mem e hx)) hpw
      simpa using hrec
    · have hsk' : fSkipped safePoint oldestSeqno e = false := by simpa using hsk
      obtain ⟨hv, hw⟩ := hall e (by simp) hsk'
      obtain ⟨hro, hlu⟩ := hfresh e (by simp) hsk'
      have hstepEq : filterStep safePoint oldestSeqno st e = filterStepMain st e [] := by
        rcases filterStep_cases safePoint oldestSeqno st e with
          ⟨hf, _⟩ | ⟨_, hdel, _⟩ | ⟨_, _, k0, hk0, _, _⟩ | ⟨_, _, k0, hk0, _, _⟩ |
          ⟨_, _, _, hq⟩
        · rw [hsk'] at hf; cases hf
        · rw [hv] at hdel; cases hdel
        · rw [hsdel] at hk0; cases hk0
        · rw [hsdel] at hk0; cases hk0
        · exact hq
      have hmainRes : (filterStepMain st e []).2.1 = [] ∧
          (filterStepMain st e []).2.2 = [] ∧
          (filterStepMain st e []).1.removeOlder = true ∧
          (filterStepMain st e []).1.mvccPfx = e.pfx ∧
          (filterStepMain st e []).1.cachedMvccDelete = none ∧
          (filterStepMain st e []).1.cachedSkipDelete = none ∧
          (filterStepMain st e []).1.lastUserKey = some e.userKey := by
        rcases filterStepMain_cases st e [] with ⟨hdup, hq⟩ | ⟨_, hpfx, hq⟩ | ⟨_, hpfx, hq⟩
        · exact absurd hdup hlu
        · rw [hq]
          rcases filterClassify_cases
              { mvccPfx := e.pfx, removeOlder := false, cachedMvccDelete := none,
                cachedSkipDelete := st.cachedSkipDelete, lastUserKey := some e.userKey } e
              ([] ++ st.cachedMvccDelete.toList) with
            ⟨hro2, hq2⟩ | ⟨_, hw2, hq2⟩ | ⟨_, _, hq2⟩ | ⟨_, hw2, hq2⟩
          · exact Bool.noConfusion hro2
          · exfalso
            rcases hw2 with hw2 | hw2 <;> (rw [hw] at hw2; cases hw2)
          · rw [hq2, hmv, hsdel]
            exact ⟨rfl, rfl, rfl, rfl, rfl, rfl, rfl⟩
          · exfalso
            rw [hw] at hw2; cases hw2
        · rw [hq]
          rcases filterClassify_cases { st with lastUserKey := some e.userKey } e [] with
            ⟨hro2, hq2⟩ | ⟨_, hw2, hq2⟩ | ⟨_, _, hq2⟩ | ⟨_, hw2, hq2⟩
          · exfalso
            have h3 : st.removeOlder = true := hro2
            exact hro h3 hpfx
          · exfalso
            rcases hw2 with hw2 | hw2 <;> (rw [hw] at hw2; cases hw2)
          · rw [hq2]
            refine ⟨rfl, rfl, rfl, hpfx, hmv, hsdel, rfl⟩
          · exfalso
            rw [hw] at hw2; cases hw2
      rw [hstepEq]
      rw [List.filter_cons_of_pos (by simp [hsk'])] at hpw
      have hpwc := List.pairwise_cons.mp hpw
      have hrec := ih (filterStepMain st e []).1 hmainRes.2.2.2.2.1 hmainRes.2.2.2.2.2.1
        (fun x hx => hall x (List.mem_cons_of_mem e hx))
        (fun x hx hxsk => by
          constructor
          · intro _
            rw [hmainRes.2.2.2.1]
            exact hpwc.1 x (List.mem_filter.mpr ⟨hx, by simp [hxsk]⟩)
          · rw [hmainRes.2.2.2.2.2.2]
            intro hcontra
            injection hcontra with h5
            exact hpwc.1 x (List.mem_filter.mpr ⟨hx, by simp [hxsk]⟩)
              (congrArg Prod.fst h5))
        hpwc.2
      refine ⟨?_, ?_, hrec.2.2.1, hrec.2.2.2⟩
      · simp [hmainRes.1, hrec.1]
      · simp [hmainRes.2.1, hrec.2.1]

/-- C6: the MVCC GC Filter is idempotent at a fixed safe point and
oldest_seqno.  For a write column scanned in key order (entries of one mvcc
key prefix are contiguous, as skiplist iteration guarantees), a second fresh
Filter pass over the entries surviving the first pass removes nothing from
the write column (drop-time flushes included) and erases nothing from the
default column, so the surviving write column is unchanged. -/
theorem filter_gc_idempotent (safePoint oldestSeqno : Nat) (l : List WEntry)
    (hg : groupedKeys (l.map WEntry.pfx) = true) :
    filterRun safePoint oldestSeqno (filterSurvivors safePoint oldestSeqno l) = ([], []) ∧
    filterSurvivors safePoint oldestSeqno (filterSurvivors safePoint oldestSeqno l) =
      filterSurvivors safePoint oldestSeqno l := by
  have hSmem : ∀ e, e ∈ filterSurvivors safePoint oldestSeqno l →
      e ∈ l ∧ e.key ∉ (filterRun safePoint oldestSeqno l).1 := by
    intro e he
    have h := List.mem_filter.mp he
    exact ⟨h.1, by simpa using h.2⟩
  have hall : ∀ e ∈ filterSurvivors safePoint oldestSeqno l,
      fSkipped safePoint oldestSeqno e = false →
      e.vtype = VType.value ∧ e.wrec.wtype = WrType.put := by
    intro e he hsk
    obtain ⟨hel, hkept⟩ := hSmem e he
    obtain ⟨A, B, hq⟩ := List.append_of_mem hel
    rw [hq] at hkept
    have h := filter_kept_mid safePoint oldestSeqno A e B hsk hkept
    exact ⟨h.1, h.2.1⟩
  have hpw : List.Pairwise (fun a b => a.pfx ≠ b.pfx)
      ((filterSurvivors safePoint oldestSeqno l).filter
        (fun e => !(fSkipped safePoint oldestSeqno e))) := by
    rw [List.pairwise_iff_forall_sublist]
    intro a b hab
    have haS := hab.subset (show a ∈ [a, b] by simp)
    have hbS := hab.subset (show b ∈ [a, b] by simp)
    have hska : fSkipped safePoint oldestSeqno a = false := by
      simpa using (List.mem_filter.mp haS).2
    have hskb : fSkipped safePoint oldestSeqno b = false := by
      simpa using (List.mem_filter.mp hbS).2
    have hak := (hSmem a (List.mem_filter.mp haS).1).2
    have hbk := (hSmem b (List.mem_filter.mp hbS).1).2
    have hsub : List.Sublist [a, b] l :=
      (hab.trans (List.filter_sublist _)).trans (List.filter_sublist _)
    obtain ⟨A, B, C, hq⟩ := pair_sublist_split a b l hsub
    rw [hq] at hg hak hbk
    exact filter_kept_pair_pfx safePoint oldestSeqno A a B b C hg hska hskb hak hbk
  have hclean := filterRunAux_clean safePoint oldestSeqno
    (filterSurvivors safePoint oldestSeqno l) fInit rfl rfl hall
    (fun e _ _ => ⟨fun h => by simp [fInit] at h, by simp [fInit]⟩) hpw
  have hrun : filterRun safePoint oldestSeqno (filterSurvivors safePoint oldestSeqno l) =
      ([], []) := by
    simp only [filterRun, filterDropFlush]
    rw [hclean.1, hclean.2.1, hclean.2.2.1, hclean.2.2.2]
    rfl
  refine ⟨hrun, ?_⟩
  show (filterSurvivors safePoint oldestSeqno l).filter
      (fun e => !((filterRun safePoint oldestSeqno
        (filterSurvivors safePoint oldestSeqno l)).1.contains e.key)) =
    filterSurvivors safePoint oldestSeqno l
  rw [hrun]
  exact List.filter_eq_self.mpr (fun a _ => rfl)

theorem filter_gc_idempotent_witness :
    groupedKeys (([⟨[1], 3, 5, VType.value, ⟨WrType.put, 2, false⟩⟩,
        ⟨[1], 2, 4, VType.value, ⟨WrType.put, 1, false⟩⟩,
        ⟨[2], 6, 3, VType.value, ⟨WrType.del, 5, false⟩⟩] : List WEntry).map
      WEntry.pfx) = true ∧
    (filterRun 10 5 (filterSurvivors 10 5
        [⟨[1], 3, 5, VType.value, ⟨WrType.put, 2, false⟩⟩,
         ⟨[1], 2, 4, VType.value, ⟨WrType.put, 1, false⟩⟩,
         ⟨[2], 6, 3, VType.value, ⟨WrType.del, 5, false⟩⟩]) = ([], []) ∧
     filterSurvivors 10 5 (filterSurvivors 10 5
        [⟨[1], 3, 5, VType.value, ⟨WrType.put, 2, false⟩⟩,
         ⟨[1], 2, 4, VType.value, ⟨WrType.put, 1, false⟩⟩,
         ⟨[2], 6, 3, VType.value, ⟨WrType.del, 5, false⟩⟩]) =
       filterSurvivors 10 5
        [⟨[1], 3, 5, VType.value, ⟨WrType.put, 2, false⟩⟩,
         ⟨[1], 2, 4, VType.value, ⟨WrType.put, 1, false⟩⟩,
         ⟨[2], 6, 3, VType.value, ⟨WrType.del, 5, false⟩⟩]) :=
  ⟨by simp [groupedKeys],
   filter_gc_idempotent 10 5
     [⟨[1], 3, 5, VType.value, ⟨WrType.put, 2, false⟩⟩,
      ⟨[1], 2, 4, VType.value, ⟨WrType.put, 1, false⟩⟩,
      ⟨[2], 6, 3, VType.value, ⟨WrType.del, 5, false⟩⟩] (by simp [groupedKeys])⟩
